import Mathlib

/-!
# Verification of the phono pipe/mixer core

Shallow embedding of the repository's core data structures and algorithms:

* `Phono` — the transport types of package `phono` (`Buffer`, `Params`) and the
  float64 values produced by the mixer's summation (`Flt`).
* `Mixer` — package `mixer`: the `frame` type, `frame.isReady`, `frame.sum`, and
  the scheduler goroutine started by `Mixer.RunPump`.
* `Runner` — package `pipe/runner`: the pump runner loop.
* `Pipe` — the pipe controller state machine (`ready`/`running`/`pausing`/`paused`
  state functions) and the pausing acknowledgement protocol.
* `State` — package `internal/state`: the `transition` methods of its state machine.

float64 samples are modelled as exact rationals (no rounding); the one float
phenomenon the code depends on — division by a zero signal count — is modelled
explicitly by the `Flt` type.
-/

namespace Phono

/-- `phono.Buffer` (`[][]float64`): a sample slice per channel. -/
abbrev Buffer := List (List ℚ)

/-- The value of a float64 division in the mixer's summation.  `nan` models IEEE
NaN (the result of `0/0`), `inf b` models `±∞` (finite numerator over `0`),
`val q` a finite value.  All finite arithmetic is modelled exactly. -/
inductive Flt where
  | nan : Flt
  | inf (positive : Bool) : Flt
  | val (q : ℚ) : Flt
deriving DecidableEq

/-- float64 division `sum/signals` as used by `frame.sum`: a zero divisor yields
NaN when the numerator is zero, `±∞` otherwise; a nonzero divisor divides exactly. -/
def fdiv (sum signals : ℚ) : Flt :=
  if signals = 0 then (if sum = 0 then .nan else .inf (decide (0 < sum))) else .val (sum / signals)

/-- The contents of `phono.Params.private`: an association of component identifier
to the ordered list of parameter thunks registered for it.  Thunks are abstract
(`α`); executing a thunk is modelled by emitting it into a result list.
Corresponds to a Go `map[string][]ParamFunc`; key order is irrelevant, all
statements are phrased through `lookupList`. -/
structure ParamsData (α : Type) where
  entries : List (String × List α)
deriving DecidableEq

/-- A `*phono.Params` pointer: `none` models the nil pointer. -/
abbrev Params (α : Type) := Option (ParamsData α)

/-- The thunk list registered under `id` (`p.private[id]`, nil map entry = `[]`). -/
def lookupList (p : Params α) (id : String) : List α :=
  match p with
  | none => []
  | some d => (((d.entries.find? (fun e => e.1 == id)).map Prod.snd).getD [])

/-- `Params.ApplyTo`: if the receiver is nil, do nothing; otherwise execute every
thunk registered under `id` in order and delete the entry.  Returns the executed
thunks (in execution order) and the updated set. -/
def Params.ApplyTo (p : Params α) (id : String) : List α × Params α :=
  match p with
  | none => ([], none)
  | some d =>
    match d.entries.find? (fun e => e.1 == id) with
    | none => ([], some d)
    | some e => (e.2, some ⟨d.entries.filter (fun e' => e'.1 != id)⟩)

/-- Helper for `Params.Add`: `private[id] = append(private[id], fn)` — append `fn`
to the entry of `id`, creating the entry if absent. -/
def upsertAppend (entries : List (String × List α)) (id : String) (fn : α) :
    List (String × List α) :=
  match entries with
  | [] => [(id, [fn])]
  | e :: rest =>
    if e.1 == id then (e.1, e.2 ++ [fn]) :: rest else e :: upsertAppend rest id fn

/-- `Params.Add` restricted to a single `Param{ID: id, Apply: fn}` (the Go variadic
form loops this).  A nil receiver allocates a fresh set (`NewParams`). -/
def Params.Add (p : Params α) (id : String) (fn : α) : Params α :=
  match p with
  | none => some ⟨[(id, [fn])]⟩
  | some d => some ⟨upsertAppend d.entries id fn⟩

/-- `Params.Empty`: nil pointer, nil map or empty map. -/
def Params.Empty (p : Params α) : Bool :=
  match p with
  | none => true
  | some d => d.entries.isEmpty

/-- One iteration of `Params.Merge`'s loop body for a source entry `kv`:
if the key exists, append the source list to it, otherwise store the source list. -/
def mergeEntry (entries : List (String × List α)) (kv : String × List α) :
    List (String × List α) :=
  match entries with
  | [] => [kv]
  | e :: rest =>
    if e.1 == kv.1 then (e.1, e.2 ++ kv.2) :: rest else e :: mergeEntry rest kv

/-- `Params.Merge`: a nil or empty receiver returns `source` unchanged; otherwise
every entry of `source` is folded into the receiver.  Ranging over
`source.private` dereferences `source`, so a nil `source` with a non-empty
receiver panics — modelled by the outer `Option` (`none` = panic). -/
def Params.Merge (p : Params α) (source : Params α) : Option (Params α) :=
  if p.Empty then some source
  else
    match p, source with
    | some d, some ds => some (some ⟨ds.entries.foldl mergeEntry d.entries⟩)
    | some _, none => none
    | none, _ => some source

end Phono

namespace Mixer

/-- `mixer.frame`: the buffers contributed so far and the number of contributions
that complete the frame.  The `next` pointer of the Go struct is represented
positionally: frames live in a list (oldest first) and `next` is the successor
index; the last frame of the list has `next == nil`. -/
structure Frame where
  buffers : List Phono.Buffer
  expected : Int
deriving DecidableEq

instance : Inhabited Frame := ⟨⟨[], 0⟩⟩

/-- `frame.isReady`: `f.expected == len(f.buffers)`. -/
def Frame.isReady (f : Frame) : Bool := f.expected == (f.buffers.length : Int)

/-- The inner loop of `frame.sum` for channel `nc` at sample position `bs`:
`for i := 0; i < len(f.buffers) && len(f.buffers[i][nc]) > bs; i++` — it walks the
contributed buffers from index 0 and STOPS at the first buffer whose channel has
no sample at `bs`.  Returns the accumulated `(sum, signals)` pair. -/
def sumAt (bufs : List Phono.Buffer) (nc bs : Nat) : ℚ × ℚ :=
  match bufs with
  | [] => (0, 0)
  | b :: rest =>
    let ch := b.getD nc []
    if bs < ch.length then
      let acc := sumAt rest nc bs
      (ch.getD bs 0 + acc.1, acc.2 + 1)
    else (0, 0)

/-- `frame.sum`: per channel and per sample position, accumulate `sum` and
`signals` over the contributed buffers and append `sum/signals` to the result.
The two `for` loops building `result` by `append` are rendered as maps over
`List.range`. -/
def Frame.sum (f : Frame) (numChannels bufferSize : Nat) : List (List Phono.Flt) :=
  (List.range numChannels).map fun nc =>
    (List.range bufferSize).map fun bs =>
      let acc := sumAt f.buffers nc bs
      Phono.fdiv acc.1 acc.2

/-- Modelled from the spec: "for channel `c` at position `i`, sum `b[c][i]` over
each contributing buffer `b` for which `len(b[c]) > i`, divide by the number of
contributing signals at that position" — every buffer long enough at a position
contributes, regardless of its position in the list. -/
def Frame.sumSpec (f : Frame) (numChannels bufferSize : Nat) : List (List Phono.Flt) :=
  (List.range numChannels).map fun nc =>
    (List.range bufferSize).map fun bs =>
      let contrib := f.buffers.filter (fun b => bs < (b.getD nc []).length)
      Phono.fdiv (contrib.foldr (fun b acc => (b.getD nc []).getD bs 0 + acc) 0)
        (contrib.length)

/-- Per-input state (`mixer.input`): the index of the frame this input
contributes to next (Go: the `*frame` pointer) and the `received` counter. -/
structure InputSt where
  frame : Nat
  received : Int
deriving DecidableEq

/-- The scheduler-owned state of a `Mixer` pump session.  `frames` is the
singly-linked frame list, oldest first; `mframe` is the index `m.frame` points
to; `inputs`/`done` model the two `map[string]*input` maps as association lists
(ids are `Nat`); `emitted` records the frame indices passed to `m.sendFrame`
(i.e. sent on the `ready` channel) in order; `closed` records that the goroutine
executed `close(m.ready); return`. -/
structure MState where
  frames : List Frame
  mframe : Nat
  inputs : List (Nat × InputSt)
  done : List (Nat × InputSt)
  emitted : List Nat
  closed : Bool
deriving DecidableEq

/-- Map lookup `m.inputs[id]`. -/
def lookupInput (l : List (Nat × InputSt)) (id : Nat) : Option InputSt :=
  (l.find? (fun e => e.1 == id)).map Prod.snd

/-- Map store `m.inputs[id] = v` for a key already present (mutation of the
`*input` the map points to). -/
def setInput (l : List (Nat × InputSt)) (id : Nat) (v : InputSt) :
    List (Nat × InputSt) :=
  l.map fun e => if e.1 == id then (e.1, v) else e

/-- Map deletion `delete(m.inputs, id)`. -/
def eraseInput (l : List (Nat × InputSt)) (id : Nat) : List (Nat × InputSt) :=
  l.filter fun e => e.1 != id

/-- In-place update of the frame at index `j` (mutation through a `*frame`). -/
def updFrame (frames : List Frame) (j : Nat) (g : Frame → Frame) : List Frame :=
  frames.set j (g (frames.getD j default))

/-- A `*phono.Message` as the scheduler sees it: a buffer contributed by input
`id`, or the buffer-less closing marker that `RunSink`'s `After` hook sends for
`id`. -/
inductive Msg where
  | buf (id : Nat) (b : Phono.Buffer) : Msg
  | close (id : Nat) : Msg
deriving DecidableEq

/-- The `SourceID` of a message. -/
def msgId : Msg → Nat
  | .buf i _ => i
  | .close i => i

/-- Whether a message originates from input `i`. -/
def isFor (i : Nat) (m : Msg) : Bool := msgId m == i

/-- The `case sourceID := <-m.open` branch of the scheduler:
`m.inputs[sourceID] = &input{frame: m.frame}` followed by
`m.frame.expected = len(m.inputs)`. -/
def register (s : MState) (id : Nat) : MState :=
  let inputs' :=
    if (lookupInput s.inputs id).isSome then setInput s.inputs id ⟨s.mframe, 0⟩
    else s.inputs ++ [(id, ⟨s.mframe, 0⟩)]
  { s with
    inputs := inputs',
    frames := updFrame s.frames s.mframe
      (fun f => { f with expected := (inputs'.length : Int) }) }

/-- The emission guard of the input-closing branch:
`f.expected > 0 && f.isReady()` (checked after the decrement). -/
def closeEmitGuard (f : Frame) : Bool := decide (0 < f.expected) && f.isReady

/-- The `for f := input.frame; f != nil; f = f.next` loop of the input-closing
branch, iterating from index `j` to the end of the frame list: each frame's
`expected` is decremented and, whenever `closeEmitGuard` fires, the code calls
`m.sendFrame(input.frame)` — note that it sends the frame at the input's
(unchanged) pointer index `ptrIdx`, not the frame under iteration.  Returns the
updated frames and the emission list.  `fuel` counts the loop iterations left
(the updates preserve the list length, so `frames.length - j` at the start is
exact — see `closeLoop`). -/
def closeLoopGo (fuel : Nat) (frames : List Frame) (ptrIdx j : Nat) :
    List Frame × List Nat :=
  match fuel with
  | 0 => (frames, [])
  | fuel + 1 =>
    if j < frames.length then
      let f0 := frames.getD j default
      let f' : Frame := { f0 with expected := f0.expected - 1 }
      let rest := closeLoopGo fuel (frames.set j f') ptrIdx (j + 1)
      (rest.1, (if closeEmitGuard f' then [ptrIdx] else []) ++ rest.2)
    else (frames, [])

/-- The input-closing loop, started at the input's pointer `j = ptrIdx`. -/
def closeLoop (frames : List Frame) (ptrIdx j : Nat) : List Frame × List Nat :=
  closeLoopGo (frames.length - j) frames ptrIdx j

/-- The `msg.Buffer != nil` branch of the scheduler: look the input up
(`none` models the nil-map-entry panic), bump `received`, append the buffer to
the input's current frame, create the successor frame with
`expected = len(m.inputs)` if it does not exist yet (i.e. if the current frame is
the last one), send the frame if it is now ready (`m.sendFrame` also updates
`m.frame`), and advance the input's pointer.  The Go branch
`if input.frame == nil { input.frame = m.frame }` is dead — registration always
sets the pointer — and is omitted. -/
def stepBuf (s : MState) (id : Nat) (b : Phono.Buffer) : Option MState :=
  match lookupInput s.inputs id with
  | none => none
  | some ist =>
    let p := ist.frame
    let framesB := updFrame s.frames p (fun f => { f with buffers := f.buffers ++ [b] })
    let frames2 :=
      if p + 1 = framesB.length then
        framesB ++ [{ buffers := [], expected := (s.inputs.length : Int) }]
      else framesB
    let fire := (frames2.getD p default).isReady
    some { s with
      frames := frames2,
      mframe := if fire then p else s.mframe,
      emitted := if fire then s.emitted ++ [p] else s.emitted,
      inputs := setInput s.inputs id ⟨p + 1, ist.received + 1⟩ }

/-- The `msg.Buffer == nil` (input closing) branch of the scheduler: run the
decrement loop from the input's pointer, move the input from `inputs` to `done`,
and close `ready` (and return) if no input remains. -/
def stepClose (s : MState) (id : Nat) : Option MState :=
  match lookupInput s.inputs id with
  | none => none
  | some ist =>
    let r := closeLoop s.frames ist.frame ist.frame
    let inputs' := eraseInput s.inputs id
    some { frames := r.1,
           mframe := if r.2.isEmpty then s.mframe else ist.frame,
           inputs := inputs',
           done := s.done ++ [(id, ist)],
           emitted := s.emitted ++ r.2,
           closed := inputs'.isEmpty }

/-- Process one message from the `in` channel.  After `close(m.ready); return`
the goroutine no longer reads `in`, so a step on a closed state is impossible. -/
def step (s : MState) (m : Msg) : Option MState :=
  if s.closed then none
  else
    match m with
    | .buf id b => stepBuf s id b
    | .close id => stepClose s id

/-- Process a whole message sequence. -/
def runMsgs (s : MState) : List Msg → Option MState
  | [] => some s
  | m :: ms => (step s m).bind (fun s' => runMsgs s' ms)

/-- `RunPump`'s `Before` hook on a fresh mixer: a new head frame (`&frame{}`), a
new `ready` channel, empty input maps. -/
def initState : MState :=
  { frames := [default], mframe := 0, inputs := [], done := [], emitted := [],
    closed := false }

/-- All upstream pipelines register before the downstream pump processes
messages (the documented contract: "RunSink should be executed BEFORE RunPump"),
with ids `0 .. K-1`; the scheduler drains `m.open` first. -/
def registerAll (K : Nat) : MState := (List.range K).foldl register initState

/-- Ghost data for the scheduler invariant: the largest number of buffers any of
the `K` inputs has delivered so far. -/
def maxd (K : Nat) (d : Nat → Nat) : Nat := (Finset.range K).sup d

/-- Number of inputs that have delivered a buffer for frame `j` (more than `j`
buffers in total). -/
def cntGt (K : Nat) (d : Nat → Nat) (j : Nat) : Nat :=
  ((Finset.range K).filter fun i => j < d i).card

/-- Number of closed inputs whose total stream length `n i` did not reach past
frame `j` — exactly the closes that have decremented frame `j`'s `expected`. -/
def closedLE (K : Nat) (n : Nat → Nat) (C : Nat → Bool) (j : Nat) : Nat :=
  ((Finset.range K).filter fun i => C i = true ∧ n i ≤ j).card

/-- Frame `j` has fired (been sent on `ready`): its buffer count equals its
current `expected` and is positive. -/
abbrev fired (K : Nat) (n : Nat → Nat) (d : Nat → Nat) (C : Nat → Bool) (j : Nat) :
    Prop :=
  cntGt K d j = K - closedLE K n C j ∧ 0 < cntGt K d j

/-- Number of frames among `0 .. L-1` that have fired. -/
def firedCnt (K : Nat) (n : Nat → Nat) (d : Nat → Nat) (C : Nat → Bool) (L : Nat) :
    Nat :=
  ((Finset.range L).filter (fired K n d C)).card

/-- The scheduler invariant, relating the state after a processed message prefix
to the ghost data: `d i` buffers delivered by input `i` so far, `C i` whether
input `i`'s closing marker has been processed, `n i` input `i`'s total stream
length. -/
structure Inv (K : Nat) (n : Nat → Nat) (s : MState) (d : Nat → Nat) (C : Nat → Bool) :
    Prop where
  frames_len : s.frames.length = maxd K d + 1
  buf_len : ∀ j < s.frames.length, (s.frames.getD j default).buffers.length = cntGt K d j
  exp_eq : ∀ j < s.frames.length,
    (s.frames.getD j default).expected = (K : Int) - (closedLE K n C j : Int)
  keys : s.inputs.map Prod.fst = (List.range K).filter (fun i => !C i)
  ptr_eq : ∀ e ∈ s.inputs, e.2.frame = d e.1
  emit_len : s.emitted.length = firedCnt K n d C s.frames.length
  closed_eq : s.closed = (decide (0 < K) && ((List.range K).all C))
  d_le : ∀ i < K, d i ≤ n i
  closed_d : ∀ i < K, C i = true → d i = n i

/-- Shape of the still-unprocessed message suffix: every message belongs to one
of the `K` inputs; a closed input has no further messages; an open input `i`
still has `n i - d i` buffer messages followed by its single closing marker. -/
structure Rem (K : Nat) (n : Nat → Nat) (ms : List Msg) (d : Nat → Nat) (C : Nat → Bool) :
    Prop where
  ids_lt : ∀ m ∈ ms, msgId m < K
  closed_none : ∀ i < K, C i = true → ms.filter (isFor i) = []
  open_seq : ∀ i < K, C i = false →
    ∃ bs : List Phono.Buffer,
      ms.filter (isFor i) = bs.map (Msg.buf i) ++ [Msg.close i] ∧ bs.length + d i = n i

end Mixer

namespace Runner

/-- A Go `error` value as the pump runner distinguishes them: the `pipe.ErrEOP`
sentinel or any other error. -/
inductive GoErr where
  | eop : GoErr
  | other (code : Nat) : GoErr
deriving DecidableEq

/-- Observable outcome of `runner.Pump.Run`'s goroutine: the messages sent
downstream (as abstract tokens), the errors sent on `errc`, and whether the two
channels were closed on exit (the deferred `close(out)` / `close(errc)`). -/
structure RunOutcome where
  sent : List Nat
  errs : List GoErr
  outClosed : Bool
  errcClosed : Bool
deriving DecidableEq

/-- The `for` loop of `Pump.Run`'s goroutine.  `calls` is the sequence of results
of the successive `p.Pump.Pump` calls (`ok m` = message produced, `error e` =
error returned).  On `ok`, the message is sent downstream and the loop continues;
on an error the loop returns, sending the error on `errc` first unless it is
`ErrEOP`.  `none` means the call list was exhausted without an error (the loop
would keep running).  Context cancellation and metrics are not modelled. -/
def pumpLoop : List (Except GoErr Nat) → Option (List Nat × List GoErr)
  | [] => none
  | .error e :: _ => some ([], if e = .eop then [] else [e])
  | .ok m :: rest => (pumpLoop rest).map fun r => (m :: r.1, r.2)

/-- `Pump.Run`'s goroutine including its deferred actions: after the loop exits,
the `After` hook runs (its error, if any, is sent on `errc`), then `errc` and
`out` are closed. -/
def pumpRun (calls : List (Except GoErr Nat)) (afterErr : Option GoErr) :
    Option RunOutcome :=
  (pumpLoop calls).map fun r =>
    { sent := r.1, errs := r.2 ++ afterErr.toList, outClosed := true, errcClosed := true }

end Runner

namespace Pipe

/-- The pipe controller states (the four `stateFn`s of pipe.go). -/
inductive PState where
  | ready | running | pausing | paused
deriving DecidableEq

/-- User events carried on `eventc` (`run`, `pause`, `resume`, `params`). -/
inductive PEvent where
  | run | pause | resume | params
deriving DecidableEq

/-- The control error of interest: `pipe.ErrInvalidState`. -/
inductive CtrlErr where
  | invalidState
deriving DecidableEq

/-- Result of dispatching one event in a state function: `accepted s'` models the
branch that handles the event (closing `e.done` where one exists) and continues
as state `s'`; `rejected err` models the `default` branch `e.done <- ErrInvalidState`,
after which the state function keeps looping in the same state. -/
inductive Outcome where
  | accepted (next : PState) : Outcome
  | rejected (e : CtrlErr) : Outcome
deriving DecidableEq

/-- The `switch e.event` dispatch of the four state functions `ready`, `running`,
`pausing` and `paused` in pipe.go.  `params` is accepted everywhere (merged into
the cached set); `run` in `ready` models the successful start (a runner startup
failure replies with that startup error and stays `ready` — not a control
rejection); `pause` in `running` enters `pausing`; `resume` in `paused` enters
`running`; every other event falls into the `default` branch. -/
def transition : PState → PEvent → Outcome
  | .ready, .params => .accepted .ready
  | .ready, .run => .accepted .running
  | .ready, _ => .rejected .invalidState
  | .running, .params => .accepted .running
  | .running, .pause => .accepted .pausing
  | .running, _ => .rejected .invalidState
  | .pausing, .params => .accepted .pausing
  | .pausing, _ => .rejected .invalidState
  | .paused, .params => .accepted .paused
  | .paused, .resume => .accepted .running
  | .paused, _ => .rejected .invalidState

/-- The state the controller is in after dispatching an event: a rejected event
leaves the state function looping where it was. -/
def nextState (s : PState) (e : PEvent) : PState :=
  match transition s e with
  | .accepted n => n
  | .rejected _ => s

/-- Modelled from the spec: the control-event rows of the state-machine table of
section 4.1 (run/pause/resume only: `push` events carry no done channel and
`close` is delivered by closing the event channel, so neither can be answered
with `ErrInvalidState`). -/
def specPermits : PState → PEvent → Bool
  | .ready, .run => true
  | .running, .pause => true
  | .paused, .resume => true
  | _, _ => false

/-- A parameter thunk as the pausing protocol distinguishes them: the closure of
`phono.ReceivedBy(&wg, sink)` (whose `Apply` calls `wg.Done()`), registered
under the sink's identifier, or any user thunk. -/
inductive PThunk where
  | receivedBy (id : String) : PThunk
  | user (k : Nat) : PThunk
deriving DecidableEq

/-- The parameter set attached to the reply message built by the `pausing`
state function: starting from the cached set, the loop
`for _, sink := range p.sinks { message.Params = message.Params.Add(phono.ReceivedBy(&wg, sink)) }`
adds one acknowledgement thunk per sink under that sink's identifier. -/
def pausingMessageParams (cached : Phono.Params PThunk) (sinks : List String) :
    Phono.Params PThunk :=
  sinks.foldl (fun ps sid => Phono.Params.Add ps sid (PThunk.receivedBy sid)) cached

/-- A message on one sink's dedicated channel during the pausing protocol: an
in-flight payload message (sent by the fan-out before the pause was requested)
or the pause reply message carrying this sink's `ReceivedBy` thunk. -/
inductive SinkMsg where
  | payload (tok : Nat) : SinkMsg
  | ackMsg : SinkMsg
deriving DecidableEq

/-- State of the pausing protocol: one FIFO queue per sink (the `broadcastToSinks`
fan-out preserves order, and the pause reply message was enqueued after every
in-flight message), the `sync.WaitGroup` counter (`wg.Add(len(p.sinks))`, one
`wg.Done` per executed `ReceivedBy` thunk), and whether `pausing` has returned
`paused` (which it does only after `wg.Wait()`). -/
structure PauseProto where
  queues : List (List SinkMsg)
  wg : Nat
  pausedReached : Bool
deriving DecidableEq

/-- Protocol state at the moment the pause reply message has been fanned out:
each sink still has its in-flight messages, followed by the pause message. -/
def initPauseProto (inflight : List (List Nat)) : PauseProto :=
  { queues := inflight.map (fun q => q.map SinkMsg.payload ++ [SinkMsg.ackMsg]),
    wg := inflight.length,
    pausedReached := false }

/-- One scheduler step of the pausing protocol: a sink runner dequeues the head
message of its channel and applies its parameters — processing the pause message
executes the `ReceivedBy` thunk, i.e. `wg.Done()`; or the controller's
`wg.Wait()` returns (only possible once the counter is zero) and `pausing`
returns `paused`. -/
inductive PStep : PauseProto → PauseProto → Prop where
  | sink (s : PauseProto) (k : Nat) (m : SinkMsg) (rest : List SinkMsg)
      (hk : k < s.queues.length) (hq : s.queues.getD k [] = m :: rest) :
      PStep s { s with
        queues := s.queues.set k rest,
        wg := if m = .ackMsg then s.wg - 1 else s.wg }
  | finishWait (s : PauseProto) (h : s.wg = 0) (hp : s.pausedReached = false) :
      PStep s { s with pausedReached := true }

/-- Reachability of pausing-protocol states. -/
def Reaches : PauseProto → PauseProto → Prop := Relation.ReflTransGen PStep

/-- Invariant of the pausing protocol: every queue is either fully drained or
still ends with its pause message (payloads before it), and the WaitGroup
counter equals the number of undrained queues; `paused` is only ever reached at
counter zero. -/
structure PInv (s : PauseProto) : Prop where
  shape : ∀ k < s.queues.length,
    ∃ pre : List Nat, s.queues.getD k [] = pre.map SinkMsg.payload ++ [SinkMsg.ackMsg]
      ∨ s.queues.getD k [] = []
  wg_eq : s.wg = (s.queues.filter (fun q => !q.isEmpty)).length
  paused_wg : s.pausedReached = true → s.wg = 0

end Pipe

namespace State

/-- The states of the `internal/state` machine (`ready`, `running`, `paused`). -/
inductive SState where
  | ready | running | paused
deriving DecidableEq

/-- The events of the `internal/state` machine. -/
inductive SEvent where
  | run | pause | resume | push | cancel
deriving DecidableEq

/-- The `transition` methods of `ready`, `running` and `paused` in state.go:
result is the pair (new state, error) returned to `idle`/`active`; `none` as a
state models the nil state returned on `cancel`.  The error drained by
`wait(h.errc)` during `cancel` in active states is abstracted as `waitErr`. -/
def transition (waitErr : Option Pipe.CtrlErr) :
    SState → SEvent → Option SState × Option Pipe.CtrlErr
  | .ready, .cancel => (none, none)
  | .ready, .push => (some .ready, none)
  | .ready, .run => (some .running, none)
  | .ready, _ => (some .ready, some .invalidState)
  | .running, .cancel => (none, waitErr)
  | .running, .push => (some .running, none)
  | .running, .pause => (some .paused, none)
  | .running, _ => (some .running, some .invalidState)
  | .paused, .cancel => (none, waitErr)
  | .paused, .push => (some .paused, none)
  | .paused, .resume => (some .running, none)
  | .paused, _ => (some .paused, some .invalidState)

/-- Modelled from the spec: the run/pause/resume rows of the section 4.1 table,
restricted to the three states of the `internal/state` machine. -/
def specPermits : SState → SEvent → Bool
  | .ready, .run => true
  | .running, .pause => true
  | .paused, .resume => true
  | _, _ => false

end State

/-! ## Theorems -/

namespace Phono

theorem lookup_cons {α : Type} (a : String) (w : List α) (l : List (String × List α))
    (k : String) :
    lookupList (some ⟨(a, w) :: l⟩) k = if a = k then w else lookupList (some ⟨l⟩) k := by
  by_cases h : a = k
  · rw [if_pos h, lookupList, List.find?_cons_of_pos _ (by simpa using h)]
    rfl
  · rw [if_neg h, lookupList, List.find?_cons_of_neg _ (by simpa using h), lookupList]

theorem find?_filter_ne_none {α : Type} (l : List (String × List α)) (id : String) :
    (l.filter (fun e' => e'.1 != id)).find? (fun e => e.1 == id) = none := by
  rw [List.find?_eq_none]
  intro e he
  have := (List.mem_filter.mp he).2
  simpa using this

theorem find?_filter_ne {α : Type} (l : List (String × List α)) (id k : String)
    (hk : k ≠ id) :
    (l.filter (fun e' => e'.1 != id)).find? (fun e => e.1 == k) =
      l.find? (fun e => e.1 == k) := by
  induction l with
  | nil => rfl
  | cons e rest ih =>
    by_cases hek : e.1 = k
    · have h1 : (e.1 != id) = true := by
        simpa using fun h => hk (hek ▸ h)
      rw [List.filter_cons, if_pos h1, List.find?_cons_of_pos _ (by simpa using hek),
        List.find?_cons_of_pos _ (by simpa using hek)]
    · by_cases hei : e.1 = id
      · have h1 : (e.1 != id) = false := by simpa using hei
        rw [List.filter_cons, if_neg (by simp [h1]), ih,
          List.find?_cons_of_neg _ (by simpa using hek)]
      · have h1 : (e.1 != id) = true := by simpa using hei
        rw [List.filter_cons, if_pos h1,
          List.find?_cons_of_neg _ (by simpa using hek), ih,
          List.find?_cons_of_neg _ (by simpa using hek)]

theorem lookupList_of_empty {α : Type} (p : Params α) (id : String)
    (h : p.Empty = true) : lookupList p id = [] := by
  match p with
  | none => rfl
  | some d =>
    have : d.entries = [] := by
      simpa [Params.Empty, List.isEmpty_iff] using h
    simp [lookupList, this]

/-- C8: `ApplyTo` executes exactly the thunks registered under the identifier, in
registration order; it removes that identifier's entry, so a second `ApplyTo`
executes nothing; entries of other identifiers are untouched. -/
theorem applyTo_apply_once {α : Type} (p : Params α) (id : String) :
    (p.ApplyTo id).1 = lookupList p id
    ∧ lookupList (p.ApplyTo id).2 id = []
    ∧ ((p.ApplyTo id).2.ApplyTo id).1 = []
    ∧ ∀ k, k ≠ id → lookupList (p.ApplyTo id).2 k = lookupList p k := by
  match p with
  | none => exact ⟨rfl, rfl, rfl, fun k _ => rfl⟩
  | some d =>
    cases hfind : d.entries.find? (fun e => e.1 == id) with
    | none =>
      have happ : Params.ApplyTo (some d) id = ([], some d) := by
        rw [Params.ApplyTo, hfind]
      rw [happ]
      exact ⟨by rw [lookupList, hfind]; rfl, by rw [lookupList, hfind]; rfl,
        by rw [happ], fun k _ => rfl⟩
    | some e =>
      have happ : Params.ApplyTo (some d) id =
          (e.2, some ⟨d.entries.filter (fun e' => e'.1 != id)⟩) := by
        rw [Params.ApplyTo, hfind]
      rw [happ]
      refine ⟨by rw [lookupList, hfind]; rfl, ?_, ?_, ?_⟩
      · rw [lookupList, find?_filter_ne_none]; rfl
      · rw [Params.ApplyTo, find?_filter_ne_none]
      · intro k hk
        rw [lookupList, lookupList, find?_filter_ne _ _ _ hk]

/-- Witness for C8 at a concrete parameter set. -/
theorem applyTo_apply_once_witness :
    lookupList ((Params.ApplyTo (some ⟨[("a", [0, 1]), ("b", [2])]⟩) "a").2) "b" = [2] := by
  have h := (applyTo_apply_once (some ⟨[("a", [(0 : Nat), 1]), ("b", [2])]⟩) "a").2.2.2
    "b" (by decide)
  rw [h]; rfl

/-- C9 counterexample: with a non-empty receiver, `Merge` dereferences the nil
`source` pointer (`range source.private`) and panics — it does not yield a
parameter set at all. -/
theorem merge_nil_source_counterexample :
    Params.Merge (some ⟨[("a", [0])]⟩ : Params Nat) none = none := rfl

theorem mergeEntry_lookup {α : Type} (l : List (String × List α)) (k : String)
    (v : List α) (id : String) :
    lookupList (some ⟨mergeEntry l (k, v)⟩) id =
      if id = k then lookupList (some ⟨l⟩) id ++ v else lookupList (some ⟨l⟩) id := by
  induction l with
  | nil =>
    rw [show mergeEntry ([] : List (String × List α)) (k, v) = [(k, v)] from rfl,
      lookup_cons]
    rcases eq_or_ne id k with h | h
    · subst h
      simp [lookupList]
    · simp [h, Ne.symm h]
  | cons e rest ih =>
    obtain ⟨a, w⟩ := e
    by_cases hak : a = k
    · have hm : mergeEntry ((a, w) :: rest) (k, v) = (a, w ++ v) :: rest := by
        rw [mergeEntry]
        simp [hak]
      rw [hm, lookup_cons, lookup_cons]
      rcases eq_or_ne a id with hid | hid
      · subst hid
        simp [hak]
      · have hk2 : ¬ id = k := fun hh => hid (hak.trans hh.symm)
        simp [hid, hk2]
    · have hm : mergeEntry ((a, w) :: rest) (k, v) = (a, w) :: mergeEntry rest (k, v) := by
        rw [mergeEntry]
        simp [hak]
      rw [hm, lookup_cons, lookup_cons, ih]
      rcases eq_or_ne a id with hid | hid
      · subst hid
        simp [hak]
      · simp [hid]

theorem lookup_foldl_mergeEntry {α : Type} (src : List (String × List α))
    (hsrc : (src.map Prod.fst).Nodup) (l : List (String × List α)) (id : String) :
    lookupList (some ⟨src.foldl mergeEntry l⟩) id =
      lookupList (some ⟨l⟩) id ++ lookupList (some ⟨src⟩) id := by
  induction src generalizing l with
  | nil => simp [lookupList, List.find?]
  | cons kv rest ih =>
    obtain ⟨a, w⟩ := kv
    have hnd : (rest.map Prod.fst).Nodup := (List.nodup_cons.mp hsrc).2
    have hnotin : a ∉ rest.map Prod.fst := by
      simpa using (List.nodup_cons.mp hsrc).1
    rw [List.foldl_cons, ih hnd, mergeEntry_lookup, lookup_cons]
    rcases eq_or_ne id a with hid | hid
    · subst hid
      have hrest : lookupList (some ⟨rest⟩) id = [] := by
        rw [lookupList]
        have hfn : rest.find? (fun e => e.1 == id) = none := by
          rw [List.find?_eq_none]
          intro e he hbe
          exact hnotin ((show e.1 = id from by simpa using hbe) ▸
            List.mem_map_of_mem Prod.fst he)
        simp [hfn]
      simp [hrest]
    · simp [hid, Ne.symm hid]

/-- C9 (amended): for every receiver `p` and every non-nil argument, `Merge`
yields a set whose thunk list for each identifier is `p`'s list followed by the
argument's list; a nil or empty receiver yields the argument itself.  (The
original claim fails only for a nil argument with a non-empty receiver, where the
code panics — see the counterexample.) -/
theorem merge_concat_per_id {α : Type} (p : Params α) (dq : ParamsData α)
    (hq : (dq.entries.map Prod.fst).Nodup) :
    ∃ r : Params α, Params.Merge p (some dq) = some r
      ∧ ∀ id, lookupList r id = lookupList p id ++ lookupList (some dq) id := by
  by_cases hemp : p.Empty = true
  · refine ⟨some dq, by simp [Params.Merge, hemp], fun id => ?_⟩
    rw [lookupList_of_empty p id hemp]; rfl
  · match p with
    | none => simp [Params.Empty] at hemp
    | some d =>
      refine ⟨some ⟨dq.entries.foldl mergeEntry d.entries⟩, ?_, fun id => ?_⟩
      · simp only [Params.Merge, hemp]; rfl
      · exact lookup_foldl_mergeEntry dq.entries hq d.entries id

/-- Witness for C9 at concrete parameter sets. -/
theorem merge_concat_per_id_witness :
    ∃ r : Params Nat,
      Params.Merge (some ⟨[("a", [0])]⟩) (some ⟨[("a", [1]), ("b", [2])]⟩) = some r
        ∧ lookupList r "a" = [0, 1] := by
  obtain ⟨r, hr, hl⟩ :=
    merge_concat_per_id (some ⟨[("a", [(0 : Nat)])]⟩) ⟨[("a", [1]), ("b", [2])]⟩
      (by decide)
  exact ⟨r, hr, by rw [hl "a"]; rfl⟩

end Phono

namespace Mixer

/-- C4 counterexample: `frame.isReady` checks only `expected == len(buffers)` —
a frame with `expected = 0` and no buffers is `isReady` even though the claim
requires `expected > 0` for readiness. -/
theorem isReady_positivity_counterexample :
    Frame.isReady ⟨[], 0⟩ = true ∧ ¬ 0 < (Frame.mk [] 0).expected := by decide

/-- C4 (amended): `frame.isReady` holds iff `len(f.buffers) == f.expected`, with
no positivity requirement; the `expected > 0` conjunct guards emission only in
the input-closing path (`f.expected > 0 && f.isReady()`), where eligibility is
exactly `len(buffers) == expected ∧ expected > 0`.  (In the buffer-append path a
ready frame has `expected = len(buffers) ≥ 1` automatically.) -/
theorem isReady_iff_no_positivity (f : Frame) :
    (f.isReady = true ↔ f.expected = (f.buffers.length : Int))
    ∧ (closeEmitGuard f = true ↔
        f.expected = (f.buffers.length : Int) ∧ 0 < f.expected) := by
  constructor
  · simp [Frame.isReady]
  · simp [closeEmitGuard, Frame.isReady, and_comm]

/-- C1 (code bug): `frame.sum`'s inner loop stops at the first buffer whose
channel is exhausted, so a long buffer listed after a short one does not
contribute.  On the frame holding a 1-sample buffer followed by a 2-sample
buffer, the code yields NaN at position 1 although a contributing sample exists;
the spec's summation yields that sample.  (The code comment "additional check to
sum shorten blocks" states the intent the spec describes.) -/
theorem sum_stops_at_short_buffer :
    Frame.sum ⟨[[[1]], [[2, 3]]], 2⟩ 1 2 = [[.val (3 / 2), .nan]]
    ∧ Frame.sumSpec ⟨[[[1]], [[2, 3]]], 2⟩ 1 2 = [[.val (3 / 2), .val 3]] := by
  constructor
  · show [[Phono.fdiv (1 + (2 + 0)) (0 + 1 + 1), Phono.fdiv 0 0]] = _
    norm_num [Phono.fdiv]
  · show [[Phono.fdiv (1 + (2 + 0)) 2, Phono.fdiv (3 + 0) 1]] = _
    norm_num [Phono.fdiv]

/-- C10: `frame.sum` always produces exactly `numChannels` channels of exactly
`bufferSize` samples, even when every contributed buffer is shorter; at any
position where no contributed buffer has a sample the inner loop accumulates
`(0, 0)` and the appended value is the float64 division `0/0`, i.e. NaN. -/
theorem sum_full_size_and_nan_gaps (f : Frame) (numChannels bufferSize : Nat)
    (hne : f.buffers ≠ []) :
    (f.sum numChannels bufferSize).length = numChannels
    ∧ (∀ ch ∈ f.sum numChannels bufferSize, ch.length = bufferSize)
    ∧ ∀ c < numChannels, ∀ i < bufferSize,
        (∀ b ∈ f.buffers, (b.getD c []).length ≤ i) →
        ((f.sum numChannels bufferSize).getD c []).getD i (.val 0) = Phono.Flt.nan := by
  refine ⟨by simp [Frame.sum], ?_, ?_⟩
  · intro ch hch
    obtain ⟨nc, _, rfl⟩ := List.mem_map.mp hch
    simp
  · intro c hc i hi hshort
    have hzero : sumAt f.buffers c i = (0, 0) := by
      obtain ⟨b, rest, hbr⟩ : ∃ b rest, f.buffers = b :: rest := by
        cases hfb : f.buffers with
        | nil => exact absurd hfb hne
        | cons b rest => exact ⟨b, rest, rfl⟩
      have hb : ¬ i < (b.getD c []).length := by
        have := hshort b (by rw [hbr]; exact List.mem_cons_self b rest)
        omega
      rw [hbr]
      simp only [sumAt]
      rw [if_neg hb]
    have houter : (f.sum numChannels bufferSize).getD c [] =
        (List.range bufferSize).map
          (fun bs => Phono.fdiv (sumAt f.buffers c bs).1 (sumAt f.buffers c bs).2) := by
      rw [Frame.sum, List.getD_eq_getElem?_getD, List.getElem?_map,
        List.getElem?_range hc]
      rfl
    rw [houter, List.getD_eq_getElem?_getD, List.getElem?_map, List.getElem?_range hi]
    simp [hzero, Phono.fdiv]

/-- Witness for C10 at a concrete short single-buffer frame. -/
theorem sum_full_size_and_nan_gaps_witness :
    ((Frame.mk [[[1]]] 1).buffers ≠ []) ∧
      ((Frame.sum ⟨[[[1]]], 1⟩ 1 2).getD 0 []).getD 1 (.val 0) = Phono.Flt.nan :=
  ⟨by decide,
    (sum_full_size_and_nan_gaps ⟨[[[1]]], 1⟩ 1 2 (by decide)).2.2 0 (by decide) 1
      (by decide) (by decide)⟩

end Mixer

namespace Runner

theorem pumpLoop_spec (pre : List Nat) (e : GoErr) :
    pumpLoop (pre.map Except.ok ++ [Except.error e]) =
      some (pre, if e = .eop then [] else [e]) := by
  induction pre with
  | nil => rfl
  | cons m rest ih => simp [pumpLoop, ih]

/-- C6: in a pump-runner session whose component produces `pre` messages and then
returns an error, the runner forwards exactly `pre` downstream; if the error is
the `ErrEOP` sentinel the loop exits cleanly with no error sent, otherwise the
error is sent on the error channel; in both cases the downstream and error
channels are closed on exit (After hook returning nil). -/
theorem pump_run_eof_clean (pre : List Nat) (e : GoErr) :
    pumpRun (pre.map Except.ok ++ [Except.error e]) none =
      some { sent := pre, errs := if e = .eop then [] else [e],
             outClosed := true, errcClosed := true } := by
  rw [pumpRun, pumpLoop_spec]
  simp

end Runner

/-- C7: every control event (run/pause/resume) arriving in a state whose
state-machine-table row does not permit it is answered on its done channel with
`ErrInvalidState` and leaves the controller in the same state — both in the
pipe.go controller (four states, including `pausing`) and in the
`internal/state` `transition` methods. -/
theorem invalid_control_event_rejected :
    (∀ (s : Pipe.PState) (e : Pipe.PEvent), e ≠ .params →
      Pipe.specPermits s e = false →
      Pipe.transition s e = .rejected .invalidState ∧ Pipe.nextState s e = s)
    ∧ ∀ (w : Option Pipe.CtrlErr) (s : State.SState) (e : State.SEvent),
        (e = .run ∨ e = .pause ∨ e = .resume) → State.specPermits s e = false →
        State.transition w s e = (some s, some .invalidState) := by
  constructor
  · intro s e h1 h2
    cases s <;> cases e <;>
      simp_all [Pipe.transition, Pipe.nextState, Pipe.specPermits]
  · intro w s e h1 h2
    rcases h1 with rfl | rfl | rfl <;> cases s <;>
      simp_all [State.transition, State.specPermits]

/-- Witness for C7: `resume` while `running` is rejected with `ErrInvalidState`
and the state does not change. -/
theorem invalid_control_event_rejected_witness :
    Pipe.transition .running .resume = .rejected .invalidState
    ∧ Pipe.nextState .running .resume = .running :=
  invalid_control_event_rejected.1 .running .resume (by decide) (by decide)

namespace Phono

theorem lookup_upsertAppend_self {α : Type} (l : List (String × List α)) (id : String)
    (fn : α) :
    lookupList (some ⟨upsertAppend l id fn⟩) id = lookupList (some ⟨l⟩) id ++ [fn] := by
  induction l with
  | nil =>
    rw [show upsertAppend ([] : List (String × List α)) id fn = [(id, [fn])] from rfl,
      lookup_cons, if_pos rfl]
    rfl
  | cons e rest ih =>
    obtain ⟨a, w⟩ := e
    by_cases ha : a = id
    · have hm : upsertAppend ((a, w) :: rest) id fn = (a, w ++ [fn]) :: rest := by
        rw [upsertAppend]
        simp [ha]
      rw [hm, lookup_cons, lookup_cons, if_pos ha, if_pos ha]
    · have hm : upsertAppend ((a, w) :: rest) id fn = (a, w) :: upsertAppend rest id fn := by
        rw [upsertAppend]
        simp [ha]
      rw [hm, lookup_cons, lookup_cons, if_neg ha, if_neg ha, ih]

theorem lookup_upsertAppend_ne {α : Type} (l : List (String × List α)) (id k : String)
    (fn : α) (hk : k ≠ id) :
    lookupList (some ⟨upsertAppend l id fn⟩) k = lookupList (some ⟨l⟩) k := by
  induction l with
  | nil =>
    rw [show upsertAppend ([] : List (String × List α)) id fn = [(id, [fn])] from rfl,
      lookup_cons, if_neg (fun hh => hk hh.symm)]
  | cons e rest ih =>
    obtain ⟨a, w⟩ := e
    by_cases ha : a = id
    · have hm : upsertAppend ((a, w) :: rest) id fn = (a, w ++ [fn]) :: rest := by
        rw [upsertAppend]
        simp [ha]
      have hak : ¬ a = k := fun hh => hk (by rw [← ha]; exact hh.symm)
      rw [hm, lookup_cons, lookup_cons, if_neg hak, if_neg hak]
    · have hm : upsertAppend ((a, w) :: rest) id fn = (a, w) :: upsertAppend rest id fn := by
        rw [upsertAppend]
        simp [ha]
      rw [hm, lookup_cons, lookup_cons, ih]

theorem lookup_add_self {α : Type} (p : Params α) (id : String) (fn : α) :
    lookupList (Params.Add p id fn) id = lookupList p id ++ [fn] := by
  match p with
  | none =>
    rw [show Params.Add (none : Params α) id fn = some ⟨[(id, [fn])]⟩ from rfl,
      lookup_cons, if_pos rfl]
    rfl
  | some d =>
    exact lookup_upsertAppend_self d.entries id fn

theorem lookup_add_ne {α : Type} (p : Params α) (id k : String) (fn : α) (hk : k ≠ id) :
    lookupList (Params.Add p id fn) k = lookupList p k := by
  match p with
  | none =>
    rw [show Params.Add (none : Params α) id fn = some ⟨[(id, [fn])]⟩ from rfl,
      lookup_cons, if_neg (fun hh => hk hh.symm)]
    rfl
  | some d =>
    exact lookup_upsertAppend_ne d.entries id k fn hk

end Phono

theorem getD_set_eq {β : Type} (l : List β) (k : Nat) (q d : β) (h : k < l.length) :
    (l.set k q).getD k d = q := by
  induction l generalizing k with
  | nil => simp at h
  | cons a rest ih =>
    cases k with
    | zero => rfl
    | succ k' => exact ih k' (by simpa using h)

theorem getD_set_ne {β : Type} (l : List β) (k t : Nat) (q d : β) (h : t ≠ k) :
    (l.set k q).getD t d = l.getD t d := by
  induction l generalizing k t with
  | nil => simp
  | cons a rest ih =>
    cases k with
    | zero =>
      cases t with
      | zero => exact absurd rfl h
      | succ t' => rfl
    | succ k' =>
      cases t with
      | zero => rfl
      | succ t' => exact ih k' t' (fun hh => h (by rw [hh]))

theorem getD_map_lt {β γ : Type} (f : β → γ) (l : List β) (k : Nat) (d : γ) (d' : β)
    (h : k < l.length) : (l.map f).getD k d = f (l.getD k d') := by
  induction l generalizing k with
  | nil => simp at h
  | cons a rest ih =>
    cases k with
    | zero => rfl
    | succ k' => exact ih k' (by simpa using h)

theorem getD_mem_of_lt {β : Type} (l : List β) (k : Nat) (d : β) (h : k < l.length) :
    l.getD k d ∈ l := by
  induction l generalizing k with
  | nil => simp at h
  | cons a rest ih =>
    cases k with
    | zero => exact List.mem_cons_self a rest
    | succ k' => exact List.mem_cons_of_mem a (ih k' (by simpa using h))

theorem getD_append_lt {β : Type} (l l' : List β) (k : Nat) (d : β) (h : k < l.length) :
    (l ++ l').getD k d = l.getD k d := by
  induction l generalizing k with
  | nil => simp at h
  | cons a rest ih =>
    cases k with
    | zero => rfl
    | succ k' => exact ih k' (by simpa using h)

theorem getD_append_len {β : Type} (l l' : List β) (q d : β) :
    (l ++ q :: l').getD l.length d = q := by
  induction l with
  | nil => rfl
  | cons a rest ih => simpa using ih

theorem countP_set_add {β : Type} (l : List β) (k : Nat) (q dflt : β) (p : β → Bool)
    (hk : k < l.length) :
    (l.set k q).countP p + (if p (l.getD k dflt) then 1 else 0) =
      l.countP p + (if p q then 1 else 0) := by
  induction l generalizing k with
  | nil => simp at hk
  | cons a rest ih =>
    cases k with
    | zero =>
      cases hq : p q <;> cases ha : p a <;>
        simp [List.countP_cons, hq, ha, List.getD_cons_zero]
    | succ k' =>
      have hih := ih k' (by simpa using hk)
      show (a :: rest.set k' q).countP p + (if p (rest.getD k' dflt) then 1 else 0) =
        (a :: rest).countP p + (if p q then 1 else 0)
      rw [List.countP_cons, List.countP_cons]
      omega

namespace Pipe

theorem pstep_cast (a b b' : PauseProto) (h : PStep a b) (he : b = b') : PStep a b' :=
  he ▸ h

theorem pinv_init (inflight : List (List Nat)) : PInv (initPauseProto inflight) := by
  refine ⟨?_, ?_, ?_⟩
  · intro k hk
    have hk' : k < inflight.length := by simpa [initPauseProto] using hk
    refine ⟨inflight.getD k [], Or.inl ?_⟩
    show ((inflight.map fun q => q.map SinkMsg.payload ++ [SinkMsg.ackMsg]).getD k []) = _
    rw [getD_map_lt _ _ _ _ [] hk']
  · show inflight.length = _
    have hall : ((inflight.map fun q => q.map SinkMsg.payload ++ [SinkMsg.ackMsg]).filter
        (fun q => !q.isEmpty)) =
        (inflight.map fun q => q.map SinkMsg.payload ++ [SinkMsg.ackMsg]) := by
      rw [List.filter_eq_self]
      intro a ha
      obtain ⟨x, _, rfl⟩ := List.mem_map.mp ha
      simp
    show inflight.length =
      ((inflight.map fun q => q.map SinkMsg.payload ++ [SinkMsg.ackMsg]).filter
        (fun q => !q.isEmpty)).length
    rw [hall, List.length_map]
  · intro hp
    exact absurd hp (by simp [initPauseProto])

theorem pinv_preserved (s s' : PauseProto) (hs : PInv s) (hstep : PStep s s') :
    PInv s' := by
  cases hstep with
  | sink k m rest hk hq =>
    obtain ⟨pre, hpre⟩ := hs.shape k hk
    rcases hpre with hpre | hempty
    swap
    · rw [hempty] at hq
      exact absurd hq (by simp)
    · have hcount := countP_set_add s.queues k rest [] (fun q => !q.isEmpty) hk
      rw [hq] at hcount
      simp only at hcount
      have hrest : (m = SinkMsg.ackMsg ∧ rest = []) ∨
          ((m = SinkMsg.ackMsg → False) ∧ rest ≠ []) := by
        cases pre with
        | nil =>
          rw [hq] at hpre
          simp at hpre
          exact Or.inl ⟨hpre.1, hpre.2⟩
        | cons p0 pre' =>
          rw [hq] at hpre
          simp at hpre
          refine Or.inr ⟨?_, ?_⟩
          · intro hm
            rw [hm] at hpre
            exact (by simpa using hpre.1 : False)
          · rw [hpre.2]
            simp
      refine ⟨?_, ?_, ?_⟩
      · intro t ht
        have ht' : t < s.queues.length := by simpa using ht
        rcases eq_or_ne t k with rfl | hne
        · show ∃ p', (s.queues.set t rest).getD t [] = p'.map SinkMsg.payload ++ [SinkMsg.ackMsg]
            ∨ (s.queues.set t rest).getD t [] = []
          rw [getD_set_eq _ _ _ _ ht']
          rcases hrest with ⟨_, hr⟩ | ⟨_, _⟩
          · exact ⟨[], Or.inr hr⟩
          · cases pre with
            | nil =>
              rw [hq] at hpre
              simp at hpre
              exact ⟨[], Or.inr hpre.2⟩
            | cons p0 pre' =>
              rw [hq] at hpre
              simp at hpre
              exact ⟨pre', Or.inl hpre.2⟩
        · show ∃ p', (s.queues.set k rest).getD t [] = p'.map SinkMsg.payload ++ [SinkMsg.ackMsg]
            ∨ (s.queues.set k rest).getD t [] = []
          rw [getD_set_ne _ _ _ _ _ hne]
          exact hs.shape t ht'
      · show (if m = SinkMsg.ackMsg then s.wg - 1 else s.wg) =
          ((s.queues.set k rest).filter (fun q => !q.isEmpty)).length
        have hw : s.wg = s.queues.countP (fun q => !q.isEmpty) := by
          rw [hs.wg_eq, List.countP_eq_length_filter]
        rw [← List.countP_eq_length_filter]
        rcases hrest with ⟨hm, hr⟩ | ⟨hm, hr⟩
        · rw [if_pos hm]
          subst hr
          simp at hcount
          omega
        · rw [if_neg hm]
          have h2 : (!rest.isEmpty) = true := by
            simp [List.isEmpty_iff, hr]
          have h1 : (!(m :: rest).isEmpty) = true := by simp
          simp only [h1, h2, if_true] at hcount
          omega
      · intro hp
        have h0 := hs.paused_wg (by simpa using hp)
        show (if m = SinkMsg.ackMsg then s.wg - 1 else s.wg) = 0
        rcases eq_or_ne m SinkMsg.ackMsg with rfl | hm
        · rw [if_pos rfl]; omega
        · rw [if_neg hm]; exact h0
  | finishWait h hp =>
    exact ⟨hs.shape, hs.wg_eq, fun _ => h⟩

theorem reaches_pinv (inflight : List (List Nat)) (s : PauseProto)
    (h : Reaches (initPauseProto inflight) s) : PInv s := by
  induction h with
  | refl => exact pinv_init inflight
  | tail _ hstep ih => exact pinv_preserved _ _ ih hstep

theorem pausing_params_lookup_not_mem (sid : String) :
    ∀ (sids : List String) (cached : Phono.Params PThunk), sid ∉ sids →
      Phono.lookupList (pausingMessageParams cached sids) sid =
        Phono.lookupList cached sid := by
  intro sids
  induction sids with
  | nil => intro cached _; rfl
  | cons x xs ih =>
    intro cached h
    have hx : sid ≠ x := fun hh => h (hh ▸ List.mem_cons_self x xs)
    have hxs : sid ∉ xs := fun hh => h (List.mem_cons_of_mem x hh)
    rw [pausingMessageParams, List.foldl_cons]
    rw [show (xs.foldl (fun ps sid => Phono.Params.Add ps sid (PThunk.receivedBy sid))
        (Phono.Params.Add cached x (PThunk.receivedBy x))) =
      pausingMessageParams (Phono.Params.Add cached x (PThunk.receivedBy x)) xs from rfl]
    rw [ih _ hxs, Phono.lookup_add_ne _ _ _ _ hx]

theorem pausing_params_lookup_mem (sid : String) :
    ∀ (sids : List String) (cached : Phono.Params PThunk), sids.Nodup → sid ∈ sids →
      Phono.lookupList (pausingMessageParams cached sids) sid =
        Phono.lookupList cached sid ++ [PThunk.receivedBy sid] := by
  intro sids
  induction sids with
  | nil => intro cached _ h; exact absurd h (by simp)
  | cons x xs ih =>
    intro cached hnd hsid
    have hxnot : x ∉ xs := (List.nodup_cons.mp hnd).1
    rw [pausingMessageParams, List.foldl_cons]
    rw [show (xs.foldl (fun ps sid => Phono.Params.Add ps sid (PThunk.receivedBy sid))
        (Phono.Params.Add cached x (PThunk.receivedBy x))) =
      pausingMessageParams (Phono.Params.Add cached x (PThunk.receivedBy x)) xs from rfl]
    rcases List.mem_cons.mp hsid with rfl | hmem
    · rw [pausing_params_lookup_not_mem _ _ _ hxnot, Phono.lookup_add_self]
    · have hne : sid ≠ x := fun hh => hxnot (hh ▸ hmem)
      rw [ih _ (List.nodup_cons.mp hnd).2 hmem, Phono.lookup_add_ne _ _ _ _ hne]

/-- C5: (a) the `pausing` state function attaches, to the generated reply
message, exactly one `ReceivedBy` acknowledgement thunk per sink, registered
under that sink's identifier (after the sink's cached thunks); (b) in every
execution of the pausing protocol, if the `paused` state has been reached then
every sink has drained its whole channel — every message that was in flight at
the pause request, and the pause message itself — since `pausing` returns
`paused` only after `wg.Wait()` and each sink's `ReceivedBy` thunk runs when that
sink processes the pause message, which sits behind all in-flight messages in
its FIFO channel. -/
theorem paused_only_after_sinks_drained (cached : Phono.Params PThunk)
    (sinks : List String) (hnd : sinks.Nodup) (inflight : List (List Nat))
    (s : PauseProto) (hreach : Reaches (initPauseProto inflight) s)
    (hp : s.pausedReached = true) :
    (∀ sid ∈ sinks,
      Phono.lookupList (pausingMessageParams cached sinks) sid =
        Phono.lookupList cached sid ++ [PThunk.receivedBy sid])
    ∧ ∀ k < s.queues.length, s.queues.getD k [] = [] := by
  constructor
  · intro sid hsid
    exact pausing_params_lookup_mem sid sinks cached hnd hsid
  · intro k hk
    have hinv := reaches_pinv inflight s hreach
    have h0 := hinv.paused_wg hp
    rw [hinv.wg_eq] at h0
    have hnil := List.length_eq_zero.mp h0
    have hmem := getD_mem_of_lt s.queues k [] hk
    have hne : ¬ (!(s.queues.getD k []).isEmpty) = true := by
      intro hh
      have hmf : s.queues.getD k [] ∈ s.queues.filter (fun q => !q.isEmpty) :=
        List.mem_filter.mpr ⟨hmem, hh⟩
      rw [hnil] at hmf
      exact absurd hmf (by simp)
    simpa [List.isEmpty_iff] using hne

/-- Witness for C5: one sink with one in-flight message; after the sink processes
the in-flight message and the pause message and `wg.Wait()` returns, the reached
`paused` state has the sink's channel fully drained. -/
theorem paused_only_after_sinks_drained_witness :
    Phono.lookupList (pausingMessageParams none ["s"]) "s" =
        Phono.lookupList (none : Phono.Params PThunk) "s" ++ [PThunk.receivedBy "s"]
      ∧ (PauseProto.mk [([] : List SinkMsg)] 0 true).queues.getD 0 [] = [] := by
  have h1 : PStep (initPauseProto [[7]]) (⟨[[SinkMsg.ackMsg]], 1, false⟩ : PauseProto) :=
    pstep_cast _ _ _
      (PStep.sink (initPauseProto [[7]]) 0 (SinkMsg.payload 7) [SinkMsg.ackMsg]
        (by decide) (by decide)) (by decide)
  have h2 : PStep (⟨[[SinkMsg.ackMsg]], 1, false⟩ : PauseProto)
      (⟨[[]], 0, false⟩ : PauseProto) :=
    pstep_cast _ _ _
      (PStep.sink (⟨[[SinkMsg.ackMsg]], 1, false⟩ : PauseProto) 0 SinkMsg.ackMsg []
        (by decide) (by decide)) (by decide)
  have h3 : PStep (⟨[[]], 0, false⟩ : PauseProto) (⟨[[]], 0, true⟩ : PauseProto) :=
    pstep_cast _ _ _
      (PStep.finishWait (⟨[[]], 0, false⟩ : PauseProto) (by decide) (by decide))
      (by decide)
  have hreach : Reaches (initPauseProto [[7]]) ⟨[[]], 0, true⟩ :=
    Relation.ReflTransGen.tail (Relation.ReflTransGen.tail
      (Relation.ReflTransGen.tail Relation.ReflTransGen.refl h1) h2) h3
  have hmain := paused_only_after_sinks_drained none ["s"] (by decide) [[7]]
    ⟨[[]], 0, true⟩ hreach rfl
  exact ⟨hmain.1 "s" (by decide), hmain.2 0 (by decide)⟩

end Pipe

namespace Mixer

/-- C3 (code bug): input 0 closes having contributed no buffer while input 1 has
contributed buffers to frames 0 and 1.  During the decrement loop both frame 0
and frame 1 become ready, but each firing of the guard executes
`m.sendFrame(input.frame)` — the input's current frame — instead of sending the
frame `f` under iteration: the mixer emits frame 0 twice and never emits
frame 1. -/
theorem close_sends_current_frame_bug :
    (runMsgs (registerAll 2)
        [.buf 1 [[0]], .buf 1 [[0]], .close 0, .close 1]).map MState.emitted
      = some [0, 0] := by decide

theorem card_filter_flip_true {p q : Nat → Prop} [DecidablePred p] [DecidablePred q]
    (s : Finset ℕ) (i : ℕ) (hi : i ∈ s) (hpi : ¬ p i) (hqi : q i)
    (h : ∀ x ∈ s, x ≠ i → (p x ↔ q x)) :
    (s.filter q).card = (s.filter p).card + 1 := by
  have hins : s.filter q = insert i (s.filter p) := by
    ext x
    simp only [Finset.mem_filter, Finset.mem_insert]
    constructor
    · rintro ⟨hxs, hqx⟩
      rcases eq_or_ne x i with rfl | hne
      · exact Or.inl rfl
      · exact Or.inr ⟨hxs, (h x hxs hne).mpr hqx⟩
    · intro hx
      rcases hx with rfl | ⟨hxs, hpx⟩
      · exact ⟨hi, hqi⟩
      · rcases eq_or_ne x i with rfl | hne
        · exact absurd hpx hpi
        · exact ⟨hxs, (h x hxs hne).mp hpx⟩
  rw [hins, Finset.card_insert_of_not_mem (by simp [hpi])]

theorem cntGt_update_ne (K : ℕ) (d : ℕ → ℕ) (i : ℕ) (j : ℕ) (hj : j ≠ d i) :
    cntGt K (fun x => if x = i then d i + 1 else d x) j = cntGt K d j := by
  rw [cntGt, cntGt]
  congr 1
  apply Finset.filter_congr
  intro x _
  rcases eq_or_ne x i with rfl | hne
  · simp only [if_pos rfl]
    constructor
    · intro h
      rcases Nat.lt_succ_iff_lt_or_eq.mp h with h | h
      · exact h
      · exact absurd h hj
    · intro h
      exact Nat.lt_succ_of_lt h
  · simp [if_neg hne]

theorem cntGt_update_eq (K : ℕ) (d : ℕ → ℕ) (i : ℕ) (hiK : i < K) :
    cntGt K (fun x => if x = i then d i + 1 else d x) (d i) = cntGt K d (d i) + 1 := by
  rw [cntGt, cntGt]
  apply card_filter_flip_true _ i (Finset.mem_range.mpr hiK)
  · omega
  · simp
  · intro x _ hne
    simp [if_neg hne]

theorem closedLE_update (K : ℕ) (n : ℕ → ℕ) (C : ℕ → Bool) (i : ℕ) (hiK : i < K)
    (hC : C i = false) (j : ℕ) :
    closedLE K n (fun x => if x = i then true else C x) j =
      closedLE K n C j + (if n i ≤ j then 1 else 0) := by
  by_cases hni : n i ≤ j
  · rw [if_pos hni, closedLE, closedLE]
    apply card_filter_flip_true _ i (Finset.mem_range.mpr hiK)
    · simp [hC]
    · simp [hni]
    · intro x _ hne
      simp [if_neg hne]
  · rw [if_neg hni, closedLE, closedLE, Nat.add_zero]
    congr 1
    apply Finset.filter_congr
    intro x _
    rcases eq_or_ne x i with rfl | hne
    · simp [hC, hni]
    · simp [if_neg hne]

theorem closedLE_le (K : ℕ) (n : ℕ → ℕ) (C : ℕ → Bool) (j : ℕ) :
    closedLE K n C j ≤ K := by
  calc closedLE K n C j ≤ (Finset.range K).card := Finset.card_filter_le _ _
  _ = K := Finset.card_range K

theorem cntGt_le (K : ℕ) (d : ℕ → ℕ) (j : ℕ) : cntGt K d j ≤ K := by
  calc cntGt K d j ≤ (Finset.range K).card := Finset.card_filter_le _ _
  _ = K := Finset.card_range K

theorem maxd_update (K : ℕ) (d : ℕ → ℕ) (i : ℕ) (hiK : i < K) :
    maxd K (fun x => if x = i then d i + 1 else d x) =
      if d i = maxd K d then maxd K d + 1 else maxd K d := by
  unfold maxd
  have hub : ∀ c : ℕ, d i + 1 ≤ c → (∀ x ∈ Finset.range K, d x ≤ c) →
      (Finset.range K).sup (fun x => if x = i then d i + 1 else d x) ≤ c := by
    intro c h1 h2
    apply Finset.sup_le
    intro x hx
    by_cases hxe : x = i
    · rw [if_pos hxe]
      exact h1
    · rw [if_neg hxe]
      exact h2 x hx
  have hlb : d i + 1 ≤ (Finset.range K).sup (fun x => if x = i then d i + 1 else d x) := by
    have h0 := Finset.le_sup (f := fun x => if x = i then d i + 1 else d x)
      (Finset.mem_range.mpr hiK)
    simpa only [if_pos rfl] using h0
  have hlb2 : ∀ x ∈ Finset.range K, x ≠ i →
      d x ≤ (Finset.range K).sup (fun y => if y = i then d i + 1 else d y) := by
    intro x hx hxe
    have h0 := Finset.le_sup (f := fun y => if y = i then d i + 1 else d y) hx
    simpa only [if_neg hxe] using h0
  rcases eq_or_ne (d i) ((Finset.range K).sup d) with heq | hne
  · rw [if_pos heq]
    apply le_antisymm
    · apply hub
      · omega
      · intro x hx
        have := Finset.le_sup (f := d) hx
        omega
    · omega
  · rw [if_neg hne]
    have hlt : d i < (Finset.range K).sup d :=
      lt_of_le_of_ne (Finset.le_sup (f := d) (Finset.mem_range.mpr hiK)) hne
    apply le_antisymm
    · apply hub
      · omega
      · intro x hx
        exact Finset.le_sup (f := d) hx
    · obtain ⟨x, hx, hsup⟩ := Finset.exists_mem_eq_sup (Finset.range K)
        ⟨i, Finset.mem_range.mpr hiK⟩ d
      have hxi : x ≠ i := by
        intro hh
        rw [hh] at hsup
        omega
      have := hlb2 x hx hxi
      omega

theorem cnt_lt_of_open_pending (K : ℕ) (n : ℕ → ℕ) (d : ℕ → ℕ) (C : ℕ → Bool)
    (j : ℕ) (i₀ : ℕ) (hiK : i₀ < K)
    (hcd : ∀ i < K, C i = true → d i = n i)
    (hC : C i₀ = false) (hdj : d i₀ ≤ j) :
    cntGt K d j < K - closedLE K n C j := by
  set A := (Finset.range K).filter (fun x => j < d x) with hA
  set B := (Finset.range K).filter (fun x => C x = true ∧ n x ≤ j) with hB
  have hdisj : Disjoint A B := by
    rw [Finset.disjoint_left]
    intro x hxA hxB
    rw [hA, Finset.mem_filter] at hxA
    rw [hB, Finset.mem_filter] at hxB
    have hx : d x = n x := hcd x (Finset.mem_range.mp hxA.1) hxB.2.1
    omega
  have hiA : i₀ ∉ A := by
    rw [hA, Finset.mem_filter]
    intro hh
    omega
  have hiB : i₀ ∉ B := by
    rw [hB, Finset.mem_filter]
    intro hh
    rw [hC] at hh
    exact absurd hh.2.1 (by simp)
  have hsub : insert i₀ (A ∪ B) ⊆ Finset.range K := by
    intro x hx
    rcases Finset.mem_insert.mp hx with rfl | hx
    · exact Finset.mem_range.mpr hiK
    · rcases Finset.mem_union.mp hx with hx | hx
      · exact Finset.filter_subset _ _ hx
      · exact Finset.filter_subset _ _ hx
  have hcard := Finset.card_le_card hsub
  rw [Finset.card_insert_of_not_mem (by simp [hiA, hiB]),
    Finset.card_union_of_disjoint hdisj, Finset.card_range] at hcard
  have h1 : cntGt K d j = A.card := rfl
  have h2 : closedLE K n C j = B.card := rfl
  omega

end Mixer

namespace Mixer

theorem lookupInput_mem (l : List (Nat × InputSt)) (i : Nat)
    (h : i ∈ l.map Prod.fst) : ∃ v, lookupInput l i = some v ∧ (i, v) ∈ l := by
  induction l with
  | nil => simp at h
  | cons e rest ih =>
    by_cases he : e.1 = i
    · refine ⟨e.2, ?_, ?_⟩
      · rw [lookupInput, List.find?_cons_of_pos _ (by simpa using he)]
        rfl
      · have hee : (i, e.2) = e := by
          rw [← he]
        exact hee ▸ List.mem_cons_self e rest
    · have h2 : i = e.1 ∨ i ∈ rest.map Prod.fst := by simpa using h
      rcases h2 with h1 | h2
      · exact absurd h1.symm he
      · obtain ⟨v, hv, hm⟩ := ih h2
        refine ⟨v, ?_, List.mem_cons_of_mem _ hm⟩
        rw [lookupInput, List.find?_cons_of_neg _ (by simpa using he)]
        exact hv

theorem mem_setInput (l : List (Nat × InputSt)) (i : Nat) (v : InputSt)
    (e : Nat × InputSt) (h : e ∈ setInput l i v) :
    (e ∈ l ∧ e.1 ≠ i) ∨ e = (i, v) := by
  rw [setInput] at h
  rcases List.mem_map.mp h with ⟨a, ha, rfl⟩
  by_cases hai : a.1 = i
  · right
    rw [if_pos (by simpa using hai), hai]
  · left
    rw [if_neg (by simpa using hai)]
    exact ⟨ha, hai⟩

theorem map_fst_setInput (l : List (Nat × InputSt)) (i : Nat) (v : InputSt) :
    (setInput l i v).map Prod.fst = l.map Prod.fst := by
  rw [setInput, List.map_map]
  apply List.map_congr_left
  intro a _
  by_cases hai : a.1 = i
  · simp [Function.comp, hai]
  · simp [Function.comp, hai]

theorem map_fst_eraseInput (l : List (Nat × InputSt)) (i : Nat) :
    (eraseInput l i).map Prod.fst = (l.map Prod.fst).filter (fun x => x != i) := by
  induction l with
  | nil => rfl
  | cons e rest ih =>
    show ((e :: rest).filter (fun e => e.1 != i)).map Prod.fst = _
    rw [List.filter_cons, List.map_cons, List.filter_cons]
    by_cases he : (e.1 != i) = true
    · rw [if_pos he, if_pos he, List.map_cons]
      rw [show (rest.filter (fun e => e.1 != i)).map Prod.fst = _ from ih]
    · rw [if_neg he, if_neg he]
      exact ih

theorem mem_eraseInput (l : List (Nat × InputSt)) (i : Nat) (e : Nat × InputSt)
    (h : e ∈ eraseInput l i) : e ∈ l ∧ e.1 ≠ i := by
  rw [eraseInput] at h
  have hm := List.mem_filter.mp h
  exact ⟨hm.1, by simpa using hm.2⟩

theorem keys_filter_close (K : Nat) (C : ℕ → Bool) (i : ℕ) :
    ((List.range K).filter (fun x => !C x)).filter (fun x => x != i) =
      (List.range K).filter (fun x => !(if x = i then true else C x)) := by
  rw [List.filter_filter]
  apply List.filter_congr
  intro x _
  by_cases hxi : x = i
  · subst hxi
    simp
  · simp [hxi]

theorem closedLE_eq_card_closed (K : ℕ) (n : ℕ → ℕ) (C : ℕ → Bool) (j : ℕ)
    (h : ∀ x < K, C x = true → n x ≤ j) :
    closedLE K n C j = ((Finset.range K).filter (fun x => C x = true)).card := by
  rw [closedLE]
  congr 1
  apply Finset.filter_congr
  intro x hx
  exact ⟨fun hc => hc.1, fun hc => ⟨hc, h x (Finset.mem_range.mp hx) hc⟩⟩

theorem keys_length (K : ℕ) (C : ℕ → Bool) :
    ((List.range K).filter (fun x => !C x)).length =
      K - ((Finset.range K).filter (fun x => C x = true)).card := by
  induction K with
  | zero => rfl
  | succ K ih =>
    have hcard : ((Finset.range K).filter (fun x => C x = true)).card ≤ K := by
      calc ((Finset.range K).filter (fun x => C x = true)).card
          ≤ (Finset.range K).card := Finset.card_filter_le _ _
      _ = K := Finset.card_range K
    rw [List.range_succ, List.filter_append, List.length_append, ih,
      Finset.range_succ, Finset.filter_insert]
    by_cases hC : C K = true
    · rw [if_pos hC, Finset.card_insert_of_not_mem (by simp)]
      have hnil : (List.filter (fun x => !C x) [K]).length = 0 := by
        simp [List.filter_cons, hC]
      rw [hnil]
      omega
    · rw [if_neg hC]
      have hone : (List.filter (fun x => !C x) [K]).length = 1 := by
        simp [List.filter_cons, hC]
      rw [hone]
      omega

theorem closeLoopGo_spec (fuel : ℕ) :
    ∀ (frames : List Frame) (ptrIdx j : ℕ), fuel = frames.length - j →
      ((closeLoopGo fuel frames ptrIdx j).1.length = frames.length)
      ∧ (∀ t, ¬ (j ≤ t ∧ t < frames.length) →
          (closeLoopGo fuel frames ptrIdx j).1.getD t default = frames.getD t default)
      ∧ (∀ t, j ≤ t → t < frames.length →
          (closeLoopGo fuel frames ptrIdx j).1.getD t default =
            { frames.getD t default with
              expected := (frames.getD t default).expected - 1 })
      ∧ (closeLoopGo fuel frames ptrIdx j).2.length =
          ((Finset.Ico j frames.length).filter (fun t =>
            closeEmitGuard { frames.getD t default with
              expected := (frames.getD t default).expected - 1 } = true)).card := by
  induction fuel with
  | zero =>
    intro frames ptrIdx j hfuel
    have hj : frames.length ≤ j := by omega
    refine ⟨rfl, fun t _ => rfl, fun t ht1 ht2 => by omega, ?_⟩
    rw [show (closeLoopGo 0 frames ptrIdx j).2 = [] from rfl,
      Finset.Ico_eq_empty (by omega), Finset.filter_empty]
    rfl
  | succ fuel ih =>
    intro frames ptrIdx j hfuel
    have hj : j < frames.length := by omega
    have heq : closeLoopGo (fuel + 1) frames ptrIdx j =
        ((closeLoopGo fuel (frames.set j
            { frames.getD j default with
              expected := (frames.getD j default).expected - 1 }) ptrIdx (j + 1)).1,
          (if closeEmitGuard { frames.getD j default with
              expected := (frames.getD j default).expected - 1 } = true
            then [ptrIdx] else []) ++
            (closeLoopGo fuel (frames.set j
              { frames.getD j default with
                expected := (frames.getD j default).expected - 1 }) ptrIdx (j + 1)).2) := by
      rw [closeLoopGo, if_pos hj]
    obtain ⟨ihlen, ihout, ihin, ihem⟩ := ih (frames.set j
        { frames.getD j default with
          expected := (frames.getD j default).expected - 1 }) ptrIdx (j + 1)
      (by rw [List.length_set]; omega)
    have hlen2 : (frames.set j
        { frames.getD j default with
          expected := (frames.getD j default).expected - 1 }).length = frames.length :=
      List.length_set frames j _
    refine ⟨?_, ?_, ?_, ?_⟩
    · rw [heq]
      dsimp only
      rw [ihlen, hlen2]
    · intro t ht
      rw [heq]
      dsimp only
      have ht' : ¬ (j + 1 ≤ t ∧ t < (frames.set j
          { frames.getD j default with
            expected := (frames.getD j default).expected - 1 }).length) := by
        rw [hlen2]
        omega
      rw [ihout t ht', getD_set_ne _ _ _ _ _ (by omega)]
    · intro t ht1 ht2
      rw [heq]
      dsimp only
      rcases eq_or_ne t j with rfl | hne
      · have ht' : ¬ (t + 1 ≤ t ∧ t < (frames.set t
            { frames.getD t default with
              expected := (frames.getD t default).expected - 1 }).length) := by
          omega
        rw [ihout t ht', getD_set_eq _ _ _ _ ht2]
      · have h1 : j + 1 ≤ t := by omega
        have h2 : t < (frames.set j
            { frames.getD j default with
              expected := (frames.getD j default).expected - 1 }).length := by
          rw [hlen2]
          exact ht2
        rw [ihin t h1 h2, getD_set_ne _ _ _ _ _ hne]
    · rw [heq]
      dsimp only
      rw [List.length_append, ihem]
      have hcongr : ((Finset.Ico (j + 1) (frames.set j
            { frames.getD j default with
              expected := (frames.getD j default).expected - 1 }).length).filter (fun t =>
          closeEmitGuard { (frames.set j
            { frames.getD j default with
              expected := (frames.getD j default).expected - 1 }).getD t default with
            expected := ((frames.set j
              { frames.getD j default with
                expected := (frames.getD j default).expected - 1 }).getD t default).expected
              - 1 } = true)).card =
          ((Finset.Ico (j + 1) frames.length).filter (fun t =>
            closeEmitGuard { frames.getD t default with
              expected := (frames.getD t default).expected - 1 } = true)).card := by
        rw [hlen2]
        congr 1
        apply Finset.filter_congr
        intro t ht
        have htj : t ≠ j := by
          have := Finset.mem_Ico.mp ht
          omega
        rw [getD_set_ne _ _ _ _ _ htj]
      rw [hcongr]
      have hins : Finset.Ico j frames.length =
          insert j (Finset.Ico (j + 1) frames.length) :=
        (Nat.Ico_insert_succ_left hj).symm
      rw [hins, Finset.filter_insert]
      by_cases hg : closeEmitGuard { frames.getD j default with
          expected := (frames.getD j default).expected - 1 } = true
      · rw [if_pos hg, if_pos hg,
          Finset.card_insert_of_not_mem (by simp [Finset.mem_Ico])]
        simp [Nat.add_comm]
      · rw [if_neg hg, if_neg hg]
        simp

end Mixer

namespace Mixer

theorem stepBuf_inv (K : ℕ) (n : ℕ → ℕ) (s : MState) (d : ℕ → ℕ) (C : ℕ → Bool)
    (hInv : Inv K n s d C) (i : ℕ) (hiK : i < K) (hC : C i = false)
    (hdn : d i < n i) (b : Phono.Buffer) :
    ∃ s', stepBuf s i b = some s'
      ∧ Inv K n s' (fun x => if x = i then d i + 1 else d x) C := by
  have hkey : i ∈ s.inputs.map Prod.fst := by
    rw [hInv.keys, List.mem_filter]
    exact ⟨List.mem_range.mpr hiK, by simp [hC]⟩
  obtain ⟨v, hlook, hvmem⟩ := lookupInput_mem s.inputs i hkey
  have hvframe : v.frame = d i := hInv.ptr_eq (i, v) hvmem
  have hLmax : s.frames.length = maxd K d + 1 := hInv.frames_len
  have hdmax : d i ≤ maxd K d := Finset.le_sup (f := d) (Finset.mem_range.mpr hiK)
  have hpL : d i < s.frames.length := by omega
  have hclosedLE_le := closedLE_le K n C (d i)
  have hexp_p := hInv.exp_eq (d i) hpL
  have hlen_p := hInv.buf_len (d i) hpL
  have hcnt_eq := cntGt_update_eq K d i hiK
  have hcnt_ne := fun j hj => cntGt_update_ne K d i j hj
  have hnotfired_p : ¬ fired K n d C (d i) := by
    rintro ⟨hf1, hf2⟩
    have := cnt_lt_of_open_pending K n d C (d i) i hiK hInv.closed_d hC (le_refl _)
    omega
  rw [stepBuf, hlook]
  dsimp only
  rw [hvframe]
  set fB := updFrame s.frames (d i)
    (fun f => { f with buffers := f.buffers ++ [b] }) with hfB
  have hfBlen : fB.length = s.frames.length := by
    rw [hfB, updFrame, List.length_set]
  have hfBp : fB.getD (d i) default =
      { s.frames.getD (d i) default with
        buffers := (s.frames.getD (d i) default).buffers ++ [b] } := by
    rw [hfB, updFrame]
    exact getD_set_eq _ _ _ _ hpL
  have hfBt : ∀ t, t ≠ d i → fB.getD t default = s.frames.getD t default := by
    intro t ht
    rw [hfB, updFrame]
    exact getD_set_ne _ _ _ _ _ ht
  by_cases hcreate : d i + 1 = fB.length
  · -- the input's frame was the last one: the successor frame is created
    have hdm : d i = maxd K d := by omega
    have hmaxd' : maxd K (fun x => if x = i then d i + 1 else d x) = maxd K d + 1 := by
      rw [maxd_update K d i hiK, if_pos hdm]
    rw [if_pos hcreate]
    have hLnew : (fB ++ [Frame.mk [] (s.inputs.length : Int)]).length =
        s.frames.length + 1 := by
      rw [List.length_append, hfBlen]
      rfl
    have hgetp : (fB ++ [Frame.mk [] (s.inputs.length : Int)]).getD (d i) default =
        fB.getD (d i) default :=
      getD_append_lt _ _ _ _ (by omega)
    have hgetL : (fB ++ [Frame.mk [] (s.inputs.length : Int)]).getD
        fB.length default = Frame.mk [] (s.inputs.length : Int) :=
      getD_append_len _ _ _ _
    have hgett : ∀ t, t < fB.length →
        (fB ++ [Frame.mk [] (s.inputs.length : Int)]).getD t default =
          fB.getD t default := fun t ht => getD_append_lt _ _ _ _ ht
    have hfire_iff : ((fB ++ [Frame.mk [] (s.inputs.length : Int)]).getD
        (d i) default).isReady = true ↔
        fired K n (fun x => if x = i then d i + 1 else d x) C (d i) := by
      rw [hgetp, hfBp]
      unfold Frame.isReady fired
      dsimp only
      rw [beq_iff_eq, List.length_append, List.length_singleton, hexp_p, hlen_p,
        hcnt_eq]
      omega
    have hcnt'L : cntGt K (fun x => if x = i then d i + 1 else d x)
        s.frames.length = 0 := by
      rw [cntGt, Finset.card_eq_zero, Finset.filter_eq_empty_iff]
      intro x hx
      by_cases hxi : x = i
      · subst hxi
        show ¬ s.frames.length < (if x = x then d x + 1 else d x)
        rw [if_pos rfl]
        omega
      · show ¬ s.frames.length < (if x = i then d i + 1 else d x)
        rw [if_neg hxi]
        have h1 := Finset.le_sup (f := d) hx
        have h2 : (Finset.range K).sup d = maxd K d := rfl
        omega
    refine ⟨_, rfl, ?_, ?_, ?_, ?_, ?_, ?_, ?_, ?_, ?_⟩
    · -- frames_len
      dsimp only
      rw [hLnew, hmaxd', hLmax]
    · -- buf_len
      dsimp only
      intro t ht
      rw [hLnew] at ht
      rcases eq_or_ne t s.frames.length with htL | htL
      · have hfl : fB.length = t := by omega
        rw [hfl] at hgetL
        rw [hgetL]
        dsimp only
        rw [htL, hcnt'L]
        rfl
      · have htlt : t < s.frames.length := by omega
        rw [hgett t (by omega)]
        rcases eq_or_ne t (d i) with rfl | htp
        · rw [hfBp]
          dsimp only
          rw [List.length_append, List.length_singleton, hlen_p, hcnt_eq]
        · rw [hfBt t htp, hInv.buf_len t htlt, hcnt_ne t (by omega)]
    · -- exp_eq
      dsimp only
      intro t ht
      rw [hLnew] at ht
      rcases eq_or_ne t s.frames.length with htL | htL
      · have hfl : fB.length = t := by omega
        rw [hfl] at hgetL
        rw [hgetL]
        dsimp only
        have hkl : s.inputs.length =
            K - ((Finset.range K).filter (fun x => C x = true)).card := by
          rw [show s.inputs.length = (s.inputs.map Prod.fst).length from
            (List.length_map _ _).symm, hInv.keys, keys_length]
        have hcl : closedLE K n C t =
            ((Finset.range K).filter (fun x => C x = true)).card := by
          apply closedLE_eq_card_closed
          intro x hxK hxC
          have h1 : d x = n x := hInv.closed_d x hxK hxC
          have h2 : d x ≤ maxd K d := Finset.le_sup (f := d) (Finset.mem_range.mpr hxK)
          omega
        have hcard_le : ((Finset.range K).filter (fun x => C x = true)).card ≤ K := by
          calc ((Finset.range K).filter (fun x => C x = true)).card
              ≤ (Finset.range K).card := Finset.card_filter_le _ _
          _ = K := Finset.card_range K
        rw [hkl, hcl]
        omega
      · have htlt : t < s.frames.length := by omega
        rw [hgett t (by omega)]
        rcases eq_or_ne t (d i) with rfl | htp
        · rw [hfBp]
          dsimp only
          exact hexp_p
        · rw [hfBt t htp]
          exact hInv.exp_eq t htlt
    · -- keys
      dsimp only
      rw [map_fst_setInput, hInv.keys]
    · -- ptr_eq
      dsimp only
      intro e he
      rcases mem_setInput _ _ _ _ he with ⟨hmem, hne⟩ | rfl
      · rw [if_neg hne]
        exact hInv.ptr_eq e hmem
      · rw [if_pos rfl]
    · -- emit_len
      dsimp only
      rw [hLnew, firedCnt, Finset.range_succ, Finset.filter_insert]
      have hnotfiredL : ¬ fired K n (fun x => if x = i then d i + 1 else d x) C
          s.frames.length := by
        rintro ⟨hf1, hf2⟩
        rw [hcnt'L] at hf2
        exact absurd hf2 (by omega)
      rw [if_neg hnotfiredL]
      by_cases hfire : ((fB ++ [Frame.mk [] (s.inputs.length : Int)]).getD
          (d i) default).isReady = true
      · rw [if_pos hfire, List.length_append, hInv.emit_len, firedCnt]
        have hflip := card_filter_flip_true (p := fired K n d C)
          (q := fired K n (fun x => if x = i then d i + 1 else d x) C)
          (Finset.range s.frames.length) (d i) (Finset.mem_range.mpr hpL) hnotfired_p
          (hfire_iff.mp hfire) ?_
        · rw [hflip]
          rfl
        · intro x _ hxne
          unfold fired
          rw [hcnt_ne x hxne]
      · rw [if_neg hfire, hInv.emit_len, firedCnt]
        congr 1
        apply Finset.filter_congr
        intro x _
        rcases eq_or_ne x (d i) with rfl | hxne
        · constructor
          · intro hf
            exact absurd hf hnotfired_p
          · intro hf
            exact absurd hf (fun hh => hfire (hfire_iff.mpr hh))
        · unfold fired
          rw [hcnt_ne x hxne]
    · -- closed_eq
      exact hInv.closed_eq
    · -- d_le
      intro x hxK
      by_cases hxi : x = i
      · subst hxi
        rw [if_pos rfl]
        omega
      · rw [if_neg hxi]
        exact hInv.d_le x hxK
    · -- closed_d
      intro x hxK hxC
      have hxi : x ≠ i := by
        intro hh
        rw [hh, hC] at hxC
        exact absurd hxC (by simp)
      rw [if_neg hxi]
      exact hInv.closed_d x hxK hxC
  · -- no new frame is created
    have hdm : d i ≠ maxd K d := by omega
    have hmaxd' : maxd K (fun x => if x = i then d i + 1 else d x) = maxd K d := by
      rw [maxd_update K d i hiK, if_neg hdm]
    rw [if_neg hcreate]
    have hfire_iff : ((fB.getD (d i) default).isReady = true) ↔
        fired K n (fun x => if x = i then d i + 1 else d x) C (d i) := by
      rw [hfBp]
      unfold Frame.isReady fired
      dsimp only
      rw [beq_iff_eq, List.length_append, List.length_singleton, hexp_p, hlen_p,
        hcnt_eq]
      omega
    refine ⟨_, rfl, ?_, ?_, ?_, ?_, ?_, ?_, ?_, ?_, ?_⟩
    · -- frames_len
      dsimp only
      rw [hfBlen, hmaxd', hLmax]
    · -- buf_len
      dsimp only
      intro t ht
      rw [hfBlen] at ht
      rcases eq_or_ne t (d i) with rfl | htp
      · rw [hfBp]
        dsimp only
        rw [List.length_append, List.length_singleton, hlen_p, hcnt_eq]
      · rw [hfBt t htp, hInv.buf_len t ht, hcnt_ne t (by omega)]
    · -- exp_eq
      dsimp only
      intro t ht
      rw [hfBlen] at ht
      rcases eq_or_ne t (d i) with rfl | htp
      · rw [hfBp]
        dsimp only
        exact hexp_p
      · rw [hfBt t htp]
        exact hInv.exp_eq t ht
    · -- keys
      dsimp only
      rw [map_fst_setInput, hInv.keys]
    · -- ptr_eq
      dsimp only
      intro e he
      rcases mem_setInput _ _ _ _ he with ⟨hmem, hne⟩ | rfl
      · rw [if_neg hne]
        exact hInv.ptr_eq e hmem
      · rw [if_pos rfl]
    · -- emit_len
      dsimp only
      rw [hfBlen, firedCnt]
      by_cases hfire : (fB.getD (d i) default).isReady = true
      · rw [if_pos hfire, List.length_append, hInv.emit_len, firedCnt]
        have hflip := card_filter_flip_true (p := fired K n d C)
          (q := fired K n (fun x => if x = i then d i + 1 else d x) C)
          (Finset.range s.frames.length) (d i) (Finset.mem_range.mpr hpL) hnotfired_p
          (hfire_iff.mp hfire) ?_
        · rw [hflip]
          rfl
        · intro x _ hxne
          unfold fired
          rw [hcnt_ne x hxne]
      · rw [if_neg hfire, hInv.emit_len, firedCnt]
        congr 1
        apply Finset.filter_congr
        intro x _
        rcases eq_or_ne x (d i) with rfl | hxne
        · constructor
          · intro hf
            exact absurd hf hnotfired_p
          · intro hf
            exact absurd hf (fun hh => hfire (hfire_iff.mpr hh))
        · unfold fired
          rw [hcnt_ne x hxne]
    · -- closed_eq
      exact hInv.closed_eq
    · -- d_le
      intro x hxK
      by_cases hxi : x = i
      · subst hxi
        rw [if_pos rfl]
        omega
      · rw [if_neg hxi]
        exact hInv.d_le x hxK
    · -- closed_d
      intro x hxK hxC
      have hxi : x ≠ i := by
        intro hh
        rw [hh, hC] at hxC
        exact absurd hxC (by simp)
      rw [if_neg hxi]
      exact hInv.closed_d x hxK hxC

end Mixer

namespace Mixer

theorem stepClose_inv (K : ℕ) (n : ℕ → ℕ) (s : MState) (d : ℕ → ℕ) (C : ℕ → Bool)
    (hInv : Inv K n s d C) (i : ℕ) (hiK : i < K) (hC : C i = false)
    (hdn : d i = n i) :
    ∃ s', stepClose s i = some s'
      ∧ Inv K n s' d (fun x => if x = i then true else C x) := by
  have hkey : i ∈ s.inputs.map Prod.fst := by
    rw [hInv.keys, List.mem_filter]
    exact ⟨List.mem_range.mpr hiK, by simp [hC]⟩
  obtain ⟨v, hlook, hvmem⟩ := lookupInput_mem s.inputs i hkey
  have hvframe : v.frame = d i := hInv.ptr_eq (i, v) hvmem
  have hLmax : s.frames.length = maxd K d + 1 := hInv.frames_len
  have hdmax : d i ≤ maxd K d := Finset.le_sup (f := d) (Finset.mem_range.mpr hiK)
  have hpL : d i < s.frames.length := by omega
  obtain ⟨hclen, hcout, hcin, hcem⟩ :=
    closeLoopGo_spec (s.frames.length - d i) s.frames (d i) (d i) rfl
  have hclose_upd := closedLE_update K n C i hiK hC
  -- the guard of the decrement loop coincides with the fired predicate for the
  -- updated closed-set on the decremented range
  have hguard_iff : ∀ t, d i ≤ t → t < s.frames.length →
      ((closeEmitGuard { s.frames.getD t default with
          expected := (s.frames.getD t default).expected - 1 } = true) ↔
        fired K n d (fun x => if x = i then true else C x) t) := by
    intro t ht1 ht2
    have hexp := hInv.exp_eq t ht2
    have hlen := hInv.buf_len t ht2
    have hupd := hclose_upd t
    have hni : n i ≤ t := by omega
    rw [if_pos hni] at hupd
    have hle' := closedLE_le K n C t
    unfold closeEmitGuard Frame.isReady fired
    dsimp only
    rw [Bool.and_eq_true, decide_eq_true_iff, beq_iff_eq, hexp, hlen, hupd]
    omega
  have hnotfired : ∀ t, d i ≤ t → ¬ fired K n d C t := by
    intro t ht1
    rintro ⟨hf1, hf2⟩
    have := cnt_lt_of_open_pending K n d C t i hiK hInv.closed_d hC (by omega)
    omega
  rw [stepClose, hlook]
  dsimp only
  rw [hvframe, closeLoop]
  refine ⟨_, rfl, ?_, ?_, ?_, ?_, ?_, ?_, ?_, ?_, ?_⟩
  · -- frames_len
    dsimp only
    rw [hclen, hLmax]
  · -- buf_len
    dsimp only
    intro t ht
    rw [hclen] at ht
    by_cases htd : d i ≤ t
    · rw [hcin t htd ht]
      dsimp only
      exact hInv.buf_len t ht
    · rw [hcout t (by omega)]
      exact hInv.buf_len t ht
  · -- exp_eq
    dsimp only
    intro t ht
    rw [hclen] at ht
    have hupd := hclose_upd t
    by_cases htd : d i ≤ t
    · rw [hcin t htd ht]
      dsimp only
      rw [hInv.exp_eq t ht]
      have hni : n i ≤ t := by omega
      rw [if_pos hni] at hupd
      rw [hupd]
      have hle' := closedLE_le K n C t
      push_cast
      omega
    · rw [hcout t (by omega), hInv.exp_eq t ht]
      have hni : ¬ n i ≤ t := by omega
      rw [if_neg hni] at hupd
      rw [hupd]
      omega
  · -- keys
    dsimp only
    rw [map_fst_eraseInput, hInv.keys, keys_filter_close]
  · -- ptr_eq
    dsimp only
    intro e he
    obtain ⟨hmem, _⟩ := mem_eraseInput _ _ _ he
    exact hInv.ptr_eq e hmem
  · -- emit_len
    dsimp only
    rw [List.length_append, hInv.emit_len, hcem, hclen, firedCnt, firedCnt]
    have hrange : Finset.range s.frames.length = Finset.Ico 0 s.frames.length := by
      rw [Finset.range_eq_Ico]
    have hsplit : Finset.Ico 0 s.frames.length =
        Finset.Ico 0 (d i) ∪ Finset.Ico (d i) s.frames.length :=
      (Finset.Ico_union_Ico_eq_Ico (Nat.zero_le _) (le_of_lt hpL)).symm
    have hdisj : Disjoint (Finset.Ico 0 (d i)) (Finset.Ico (d i) s.frames.length) :=
      Finset.Ico_disjoint_Ico_consecutive _ _ _
    rw [hrange, hsplit, Finset.filter_union, Finset.filter_union,
      Finset.card_union_of_disjoint (Finset.disjoint_filter_filter hdisj),
      Finset.card_union_of_disjoint (Finset.disjoint_filter_filter hdisj)]
    have hlow : ((Finset.Ico 0 (d i)).filter
        (fired K n d (fun x => if x = i then true else C x))).card =
        ((Finset.Ico 0 (d i)).filter (fired K n d C)).card := by
      congr 1
      apply Finset.filter_congr
      intro t htm
      have ht : t < d i := (Finset.mem_Ico.mp htm).2
      have hupd := hclose_upd t
      have hni : ¬ n i ≤ t := by omega
      rw [if_neg hni] at hupd
      unfold fired
      rw [hupd]
      omega
    have hhigh0 : ((Finset.Ico (d i) s.frames.length).filter (fired K n d C)).card
        = 0 := by
      rw [Finset.card_eq_zero, Finset.filter_eq_empty_iff]
      intro t htm
      exact hnotfired t (Finset.mem_Ico.mp htm).1
    have hhigh : ((Finset.Ico (d i) s.frames.length).filter
        (fired K n d (fun x => if x = i then true else C x))).card =
        ((Finset.Ico (d i) s.frames.length).filter (fun t =>
          closeEmitGuard { s.frames.getD t default with
            expected := (s.frames.getD t default).expected - 1 } = true)).card := by
      congr 1
      apply Finset.filter_congr
      intro t htm
      have h1 := (Finset.mem_Ico.mp htm).1
      have h2 := (Finset.mem_Ico.mp htm).2
      exact (hguard_iff t h1 h2).symm
    rw [hlow, hhigh0, hhigh]
    omega
  · -- closed_eq
    dsimp only
    have hbool : ∀ a b : Bool, (a = true ↔ b = true) → a = b := by decide
    apply hbool
    constructor
    · intro hemp
      have hnil : eraseInput s.inputs i = [] := List.isEmpty_iff.mp hemp
      have hkeys : (List.range K).filter
          (fun x => !(if x = i then true else C x)) = [] := by
        rw [← keys_filter_close K C i, ← hInv.keys, ← map_fst_eraseInput, hnil]
        rfl
      rw [Bool.and_eq_true, decide_eq_true_iff]
      refine ⟨by omega, ?_⟩
      rw [List.all_eq_true]
      intro x hxm
      have h2 := List.filter_eq_nil_iff.mp hkeys x hxm
      by_cases hxi : x = i
      · simp [hxi]
      · simp only [hxi, if_false, Bool.not_eq_true] at h2
        show (if x = i then true else C x) = true
        rw [if_neg hxi]
        simpa using h2
    · intro hall
      rw [Bool.and_eq_true] at hall
      have hall2 := List.all_eq_true.mp hall.2
      apply List.isEmpty_iff.mpr
      have hkeys : ((eraseInput s.inputs i).map Prod.fst) = [] := by
        rw [map_fst_eraseInput, hInv.keys, keys_filter_close]
        rw [List.filter_eq_nil_iff]
        intro x hxm
        have := hall2 x hxm
        simp [this]
      exact List.map_eq_nil_iff.mp hkeys
  · -- d_le
    exact hInv.d_le
  · -- closed_d
    intro x hxK hxC
    by_cases hxi : x = i
    · subst hxi
      exact hdn
    · rw [if_neg hxi] at hxC
      exact hInv.closed_d x hxK hxC

end Mixer

namespace Mixer

theorem registerAll_spec (K : ℕ) :
    registerAll K = MState.mk [Frame.mk [] (K : Int)] 0
      ((List.range K).map (fun i => (i, InputSt.mk 0 0))) [] [] false := by
  induction K with
  | zero => rfl
  | succ K ih =>
    rw [registerAll, List.range_succ, List.foldl_append,
      show (List.range K).foldl register initState = registerAll K from rfl, ih]
    show register (MState.mk [Frame.mk [] (K : Int)] 0
      ((List.range K).map (fun i => (i, InputSt.mk 0 0))) [] [] false) K = _
    have hnone : lookupInput ((List.range K).map (fun i => (i, InputSt.mk 0 0))) K =
        none := by
      rw [lookupInput, List.find?_eq_none.mpr]
      · rfl
      · intro e he
        obtain ⟨a, ha, rfl⟩ := List.mem_map.mp he
        have : a < K := List.mem_range.mp ha
        simp
        omega
    have hlen : (((List.range K).map (fun i => (i, InputSt.mk 0 0))) ++
        [(K, InputSt.mk 0 0)]).length = K + 1 := by
      rw [List.length_append, List.length_map, List.length_range]
      rfl
    rw [register, hnone]
    dsimp only
    rw [Option.isSome_none]
    rw [if_neg (by simp)]
    rw [hlen]
    congr 1
    rw [List.map_append]
    rfl

theorem sup_const_zero (K : ℕ) : (Finset.range K).sup (fun _ => (0 : ℕ)) = 0 :=
  le_antisymm (Finset.sup_le (fun _ _ => le_refl 0)) (Nat.zero_le _)

theorem registerAll_inv (K : ℕ) (n : ℕ → ℕ) :
    Inv K n (registerAll K) (fun _ => 0) (fun _ => false) := by
  rw [registerAll_spec]
  have hcnt : ∀ j, cntGt K (fun _ => 0) j = 0 := by
    intro j
    rw [cntGt, Finset.card_eq_zero, Finset.filter_eq_empty_iff]
    intro x _
    omega
  have hcl : ∀ j, closedLE K n (fun _ => false) j = 0 := by
    intro j
    rw [closedLE, Finset.card_eq_zero, Finset.filter_eq_empty_iff]
    intro x _
    simp
  refine ⟨?_, ?_, ?_, ?_, ?_, ?_, ?_, ?_, ?_⟩
  · show 1 = maxd K (fun _ => 0) + 1
    rw [maxd, sup_const_zero]
  · intro j hj
    have hj0 : j = 0 := by
      simpa using hj
    subst hj0
    show (0 : ℕ) = _
    rw [hcnt]
  · intro j hj
    have hj0 : j = 0 := by
      simpa using hj
    subst hj0
    show (K : Int) = _
    rw [hcl]
    push_cast
    ring
  · show ((List.range K).map (fun i => (i, InputSt.mk 0 0))).map Prod.fst = _
    rw [List.map_map]
    have h1 : (List.range K).map (Prod.fst ∘ fun i => (i, InputSt.mk 0 0)) =
        (List.range K).map id := by
      apply List.map_congr_left
      intro a _
      rfl
    rw [h1, List.map_id, List.filter_eq_self.mpr]
    intro a _
    rfl
  · intro e he
    obtain ⟨a, _, rfl⟩ := List.mem_map.mp he
    rfl
  · show (0 : ℕ) = firedCnt K n (fun _ => 0) (fun _ => false) 1
    rw [firedCnt]
    symm
    rw [Finset.card_eq_zero, Finset.filter_eq_empty_iff]
    intro x _
    rintro ⟨h1, h2⟩
    rw [hcnt] at h2
    exact absurd h2 (by omega)
  · show false = (decide (0 < K) && (List.range K).all (fun _ => false))
    cases K with
    | zero => rfl
    | succ K =>
      have h0 : (0 : ℕ) ∈ List.range (K + 1) := by simp
      cases hall : (List.range (K + 1)).all (fun _ => false) with
      | false => rw [Bool.and_false]
      | true =>
        have := List.all_eq_true.mp hall 0 h0
        exact absurd this (by simp)
  · intro x _
    exact Nat.zero_le _
  · intro x _ hx
    exact absurd hx (by simp)

end Mixer

namespace Mixer

theorem rem_nil (K : ℕ) (n : ℕ → ℕ) (d : ℕ → ℕ) (C : ℕ → Bool)
    (hRem : Rem K n [] d C) : ∀ i < K, C i = true := by
  intro i hi
  cases hc : C i
  · obtain ⟨bs, hf, _⟩ := hRem.open_seq i hi hc
    exact absurd hf.symm (by simp)
  · rfl

theorem rem_head_buf (K : ℕ) (n : ℕ → ℕ) (ms : List Msg) (d : ℕ → ℕ) (C : ℕ → Bool)
    (i : ℕ) (b : Phono.Buffer) (hRem : Rem K n (Msg.buf i b :: ms) d C) :
    i < K ∧ C i = false ∧ d i < n i
      ∧ Rem K n ms (fun x => if x = i then d i + 1 else d x) C := by
  have hiK : i < K := hRem.ids_lt _ (List.mem_cons_self _ _)
  have hfor : isFor i (Msg.buf i b) = true := by
    simp [isFor, msgId]
  have hC : C i = false := by
    cases hc : C i
    · rfl
    · have hfil := hRem.closed_none i hiK hc
      rw [List.filter_cons, if_pos hfor] at hfil
      exact absurd hfil (by simp)
  obtain ⟨bs, hfil, hlen⟩ := hRem.open_seq i hiK hC
  rw [List.filter_cons, if_pos hfor] at hfil
  cases bs with
  | nil => exact absurd hfil (by simp)
  | cons b0 bs' =>
    rw [List.map_cons, List.cons_append] at hfil
    obtain ⟨hhead, htail⟩ := List.cons_eq_cons.mp hfil
    have hlen' : bs'.length + (d i + 1) = n i := by
      rw [List.length_cons] at hlen
      omega
    refine ⟨hiK, hC, by omega, ?_, ?_, ?_⟩
    · intro m hm
      exact hRem.ids_lt m (List.mem_cons_of_mem _ hm)
    · intro i' hi' hC'
      have hne : i ≠ i' := by
        intro hh
        rw [← hh, hC] at hC'
        exact absurd hC' (by simp)
      have hfil' := hRem.closed_none i' hi' hC'
      rw [List.filter_cons, if_neg (by simp [isFor, msgId, hne])] at hfil'
      exact hfil'
    · intro i' hi' hC'
      by_cases hii : i' = i
      · subst hii
        refine ⟨bs', htail, ?_⟩
        rw [if_pos rfl]
        exact hlen'
      · obtain ⟨bs2, hf2, hl2⟩ := hRem.open_seq i' hi' hC'
        rw [List.filter_cons,
          if_neg (by simp [isFor, msgId]; exact fun hh => hii hh.symm)] at hf2
        refine ⟨bs2, hf2, ?_⟩
        rw [if_neg hii]
        exact hl2

theorem rem_head_close (K : ℕ) (n : ℕ → ℕ) (ms : List Msg) (d : ℕ → ℕ)
    (C : ℕ → Bool) (i : ℕ) (hRem : Rem K n (Msg.close i :: ms) d C) :
    i < K ∧ C i = false ∧ d i = n i
      ∧ Rem K n ms d (fun x => if x = i then true else C x) := by
  have hiK : i < K := hRem.ids_lt _ (List.mem_cons_self _ _)
  have hfor : isFor i (Msg.close i) = true := by
    simp [isFor, msgId]
  have hC : C i = false := by
    cases hc : C i
    · rfl
    · have hfil := hRem.closed_none i hiK hc
      rw [List.filter_cons, if_pos hfor] at hfil
      exact absurd hfil (by simp)
  obtain ⟨bs, hfil, hlen⟩ := hRem.open_seq i hiK hC
  rw [List.filter_cons, if_pos hfor] at hfil
  cases bs with
  | cons b0 bs' =>
    rw [List.map_cons, List.cons_append] at hfil
    obtain ⟨hhead, _⟩ := List.cons_eq_cons.mp hfil
    exact absurd hhead (by simp)
  | nil =>
    rw [List.map_nil, List.nil_append] at hfil
    obtain ⟨_, htail⟩ := List.cons_eq_cons.mp hfil
    have hdn : d i = n i := by
      rw [List.length_nil] at hlen
      omega
    refine ⟨hiK, hC, hdn, ?_, ?_, ?_⟩
    · intro m hm
      exact hRem.ids_lt m (List.mem_cons_of_mem _ hm)
    · intro i' hi' hC'
      by_cases hii : i' = i
      · subst hii
        exact htail
      · rw [if_neg hii] at hC'
        have hfil' := hRem.closed_none i' hi' hC'
        rw [List.filter_cons,
          if_neg (by simp [isFor, msgId]; exact fun hh => hii hh.symm)] at hfil'
        exact hfil'
    · intro i' hi' hC'
      have hii : i' ≠ i := by
        intro hh
        rw [if_pos hh] at hC'
        exact absurd hC' (by simp)
      rw [if_neg hii] at hC'
      obtain ⟨bs2, hf2, hl2⟩ := hRem.open_seq i' hi' hC'
      rw [List.filter_cons,
        if_neg (by simp [isFor, msgId]; exact fun hh => hii hh.symm)] at hf2
      exact ⟨bs2, hf2, hl2⟩

theorem notClosed_of_open (K : ℕ) (n : ℕ → ℕ) (s : MState) (d : ℕ → ℕ)
    (C : ℕ → Bool) (hInv : Inv K n s d C) (i : ℕ) (hiK : i < K)
    (hC : C i = false) : s.closed = false := by
  rw [hInv.closed_eq]
  have hall : ((List.range K).all C) = false := by
    cases hall : (List.range K).all C
    · rfl
    · have := List.all_eq_true.mp hall i (List.mem_range.mpr hiK)
      rw [hC] at this
      exact absurd this (by simp)
  rw [hall, Bool.and_false]

theorem runMsgs_inv (K : ℕ) (n : ℕ → ℕ) :
    ∀ (ms : List Msg) (s : MState) (d : ℕ → ℕ) (C : ℕ → Bool),
      Inv K n s d C → Rem K n ms d C →
      ∃ s' d' C', runMsgs s ms = some s' ∧ Inv K n s' d' C'
        ∧ (∀ i < K, C' i = true) ∧ (∀ i < K, d' i = n i) := by
  intro ms
  induction ms with
  | nil =>
    intro s d C hInv hRem
    have hcl := rem_nil K n d C hRem
    exact ⟨s, d, C, rfl, hInv, hcl, fun i hi => hInv.closed_d i hi (hcl i hi)⟩
  | cons m rest ih =>
    intro s d C hInv hRem
    cases m with
    | buf i b =>
      obtain ⟨hiK, hC, hdn, hRem'⟩ := rem_head_buf K n rest d C i b hRem
      have hnc := notClosed_of_open K n s d C hInv i hiK hC
      obtain ⟨s1, hstep, hInv1⟩ := stepBuf_inv K n s d C hInv i hiK hC hdn b
      obtain ⟨s', d', C', hrun, hInv', hcl', hdn'⟩ := ih s1 _ C hInv1 hRem'
      refine ⟨s', d', C', ?_, hInv', hcl', hdn'⟩
      rw [runMsgs, step, if_neg (by rw [hnc]; simp), hstep]
      exact hrun
    | close i =>
      obtain ⟨hiK, hC, hdn, hRem'⟩ := rem_head_close K n rest d C i hRem
      have hnc := notClosed_of_open K n s d C hInv i hiK hC
      obtain ⟨s1, hstep, hInv1⟩ := stepClose_inv K n s d C hInv i hiK hC hdn
      obtain ⟨s', d', C', hrun, hInv', hcl', hdn'⟩ := ih s1 d _ hInv1 hRem'
      refine ⟨s', d', C', ?_, hInv', hcl', hdn'⟩
      rw [runMsgs, step, if_neg (by rw [hnc]; simp), hstep]
      exact hrun

end Mixer

namespace Mixer

/-- C2: for every mixer run with `K` registered inputs that deliver
`n 0, …, n (K-1)` buffers respectively, interleaved arbitrarily, and then each
close, the scheduler processes every message without fault, emits exactly
`max (n i)` output buffers on the ready channel, and closes the channel at the
end; a shorter input neither stalls the output nor changes the emitted count. -/
theorem mixer_emits_max_buffers (K : ℕ) (n : ℕ → ℕ) (ms : List Msg)
    (hK : 0 < K)
    (hRem : Rem K n ms (fun _ => 0) (fun _ => false)) :
    ∃ s', runMsgs (registerAll K) ms = some s'
      ∧ s'.emitted.length = (Finset.range K).sup n ∧ s'.closed = true := by
  obtain ⟨s', d', C', hrun, hInv, hcl, hdn⟩ :=
    runMsgs_inv K n ms (registerAll K) (fun _ => 0) (fun _ => false)
      (registerAll_inv K n) hRem
  refine ⟨s', hrun, ?_, ?_⟩
  · have hcnt : ∀ j, cntGt K d' j
        = ((Finset.range K).filter fun i => j < n i).card := by
      intro j
      unfold cntGt
      apply congrArg
      apply Finset.filter_congr
      intro x hx
      rw [hdn x (Finset.mem_range.mp hx)]
    have hcle : ∀ j, closedLE K n C' j
        = ((Finset.range K).filter fun i => n i ≤ j).card := by
      intro j
      unfold closedLE
      apply congrArg
      apply Finset.filter_congr
      intro x hx
      simp [hcl x (Finset.mem_range.mp hx)]
    have hsum : ∀ j, cntGt K d' j + closedLE K n C' j = K := by
      intro j
      rw [hcnt, hcle]
      have hc := Finset.filter_card_add_filter_neg_card_eq_card
        (s := Finset.range K) (p := fun i => j < n i)
      simp only [not_lt, Finset.card_range] at hc
      exact hc
    have hfired : ∀ j, fired K n d' C' j ↔ j < (Finset.range K).sup n := by
      intro j
      constructor
      · rintro ⟨-, hpos⟩
        rw [hcnt] at hpos
        obtain ⟨i, hi⟩ := Finset.card_pos.mp hpos
        obtain ⟨hiK, hji⟩ := Finset.mem_filter.mp hi
        exact lt_of_lt_of_le hji (Finset.le_sup hiK)
      · intro hj
        obtain ⟨i, hiK, hji⟩ := Finset.lt_sup_iff.mp hj
        have hpos : 0 < cntGt K d' j := by
          rw [hcnt]
          apply Finset.card_pos.mpr
          exact ⟨i, Finset.mem_filter.mpr ⟨hiK, hji⟩⟩
        have hs := hsum j
        exact ⟨by omega, hpos⟩
    have hmaxd : maxd K d' = (Finset.range K).sup n := by
      unfold maxd
      exact Finset.sup_congr rfl (fun x hx => hdn x (Finset.mem_range.mp hx))
    rw [hInv.emit_len, hInv.frames_len, hmaxd, firedCnt]
    have hfe : (Finset.range ((Finset.range K).sup n + 1)).filter
          (fired K n d' C')
        = Finset.range ((Finset.range K).sup n) := by
      ext j
      simp only [Finset.mem_filter, Finset.mem_range, hfired]
      omega
    rw [hfe, Finset.card_range]
  · rw [hInv.closed_eq, decide_eq_true hK, Bool.true_and]
    exact List.all_eq_true.mpr fun i hi => hcl i (List.mem_range.mp hi)

/-- Witness: two inputs, input 0 delivers 1 buffer and input 1 delivers 2
buffers; the run emits exactly `max (1, 2) = 2` buffers and closes. -/
theorem mixer_emits_max_buffers_witness :
    ∃ s', runMsgs (registerAll 2)
        [Msg.buf 0 [], Msg.buf 1 [], Msg.buf 1 [], Msg.close 0, Msg.close 1]
        = some s'
      ∧ s'.emitted.length = (Finset.range 2).sup (fun i => i + 1)
      ∧ s'.closed = true :=
  mixer_emits_max_buffers 2 (fun i => i + 1)
    [Msg.buf 0 [], Msg.buf 1 [], Msg.buf 1 [], Msg.close 0, Msg.close 1]
    (by decide)
    ⟨by intro m hm; fin_cases hm <;> decide,
     by intro i hi h; exact absurd h (by simp),
     by
      intro i hi hC
      interval_cases i
      · exact ⟨[[]], rfl, by decide⟩
      · exact ⟨[[], []], rfl, by decide⟩⟩

end Mixer
